import Mathlib

/-!
Verification development for the `url2md` web-page-to-Markdown converter.

The Python source (`url2md.py`) is shallowly embedded below: each Python
function that the verified properties talk about is translated into an
executable Lean definition over `List Char` / `String`.  Strings are lists
of characters; Python regular-expression substitutions are translated into
explicit left-to-right scanners that reproduce the leftmost/greedy
semantics of the concrete patterns used by the source.  Where the source
relies on runtime services (HTTP fetches, `uuid4` placeholder names) the
embedding replaces them by explicit parameters (a `String → Option _`
network map, deterministic numbered placeholders); these points are noted
at the definitions concerned.

Character classes: Python's `\w`, `\s`, `lower()` operate on full Unicode;
the embedding models the ASCII repertoire plus the accented Latin letters
that the source's own regexes enumerate, which covers every string the
program's French-oriented patterns distinguish.
-/

namespace Url2md

/-- Python `\s` (ASCII whitespace repertoire used by the source texts). -/
def isPySpace (c : Char) : Bool :=
  c = ' ' || c = '\t' || c = '\n' || c = '\x0d' || c = '\x0b' || c = '\x0c'

/-- The accented lowercase letters enumerated by the source's regexes
(`éèêëàâäôöûüçîï`). -/
def isFrAccentLower (c : Char) : Bool :=
  c = 'é' || c = 'è' || c = 'ê' || c = 'ë' || c = 'à' || c = 'â' || c = 'ä' ||
  c = 'ô' || c = 'ö' || c = 'û' || c = 'ü' || c = 'ç' || c = 'î' || c = 'ï'

/-- The accented uppercase letters enumerated by the source's regexes
(`ÉÈÊËÀÂÄÔÖÛÜÇÎÏ`). -/
def isFrAccentUpper (c : Char) : Bool :=
  c = 'É' || c = 'È' || c = 'Ê' || c = 'Ë' || c = 'À' || c = 'Â' || c = 'Ä' ||
  c = 'Ô' || c = 'Ö' || c = 'Û' || c = 'Ü' || c = 'Ç' || c = 'Î' || c = 'Ï'

/-- Character class `[a-zéèêëàâäôöûüçîï]` (pattern 2 of `fix_broken_words`,
group 2 of pattern 1). -/
def isFrLower (c : Char) : Bool :=
  (c.toNat ≥ 97 && c.toNat ≤ 122) || isFrAccentLower c

/-- Character class `[a-zéèêëàâäôöûüçîïA-ZÉÈÊËÀÂÄÔÖÛÜÇÎÏ]` (group 1 of
pattern 1 of `fix_broken_words`; also pattern 2 under `re.IGNORECASE`). -/
def isFrLetter (c : Char) : Bool :=
  isFrLower c || (c.toNat ≥ 65 && c.toNat ≤ 90) || isFrAccentUpper c

/-- ASCII digit. -/
def isDigitCh (c : Char) : Bool :=
  c.toNat ≥ 48 && c.toNat ≤ 57

/-- Python `\w` over the modelled repertoire: alphanumerics, underscore and
the accented letters above. -/
def isWordChar (c : Char) : Bool :=
  isFrLetter c || isDigitCh c || c = '_'

/-- Python `str.lower()` over the modelled repertoire. -/
def pyLowerChar (c : Char) : Char :=
  if c.toNat ≥ 65 && c.toNat ≤ 90 then Char.ofNat (c.toNat + 32)
  else if c = 'É' then 'é' else if c = 'È' then 'è'
  else if c = 'Ê' then 'ê' else if c = 'Ë' then 'ë'
  else if c = 'À' then 'à' else if c = 'Â' then 'â'
  else if c = 'Ä' then 'ä' else if c = 'Ô' then 'ô'
  else if c = 'Ö' then 'ö' else if c = 'Û' then 'û'
  else if c = 'Ü' then 'ü' else if c = 'Ç' then 'ç'
  else if c = 'Î' then 'î' else if c = 'Ï' then 'ï'
  else c

/-- Python `str.lower()` on a character list. -/
def pyLower (cs : List Char) : List Char :=
  cs.map pyLowerChar

/-- Python `str.strip()`: drop leading and trailing whitespace. -/
def pyStrip (cs : List Char) : List Char :=
  ((cs.dropWhile isPySpace).reverse.dropWhile isPySpace).reverse

/-- Python `str.lstrip` restricted to a given character (the source uses it only on newlines). -/
def lstripChar (x : Char) (cs : List Char) : List Char :=
  cs.dropWhile (· = x)

/-- Python `str.rstrip(x)`: drop trailing copies of one character. -/
def rstripChar (x : Char) (cs : List Char) : List Char :=
  (cs.reverse.dropWhile (· = x)).reverse

/-- Does `p` occur as a leading piece of `cs`?  (Python `str.startswith`.) -/
def startsWithCs (cs p : List Char) : Bool :=
  p.isPrefixOf cs

/-- Valid characters of a URL scheme after the leading letter
(`urllib.parse` accepts alphanumerics and `+`, `-`, `.`). -/
def isSchemeChar (c : Char) : Bool :=
  isFrLetter c || isDigitCh c || c = '+' || c = '-' || c = '.'

/-- ASCII letter (scheme must start with one). -/
def isAsciiLetter (c : Char) : Bool :=
  (c.toNat ≥ 97 && c.toNat ≤ 122) || (c.toNat ≥ 65 && c.toNat ≤ 90)

/-- Result of `urllib.parse.urlparse` as the source uses it (the `params`
component is never consulted by the source — `URLQueue.add` passes `''`
for it — so it is not modelled). -/
structure ParsedURL where
  scheme : List Char
  netloc : List Char
  path : List Char
  query : List Char
  fragment : List Char
  deriving Repr, DecidableEq

/-- Split off `scheme:` when the prefix before the first `:` is a valid
scheme name (letter, then letters/digits/`+`/`-`/`.`); the scheme is
lowercased, as in `urllib.parse`. -/
def splitScheme (cs : List Char) : List Char × List Char :=
  match cs.dropWhile (· ≠ ':') with
  | ':' :: after =>
    match cs.takeWhile (· ≠ ':') with
    | [] => ([], cs)
    | c :: cs' =>
      if isAsciiLetter c && cs'.all isSchemeChar then
        (pyLower (cs.takeWhile (· ≠ ':')), after)
      else ([], cs)
  | _ => ([], cs)

/-- Model of `urllib.parse.urlparse` for the URL shapes the program
handles: `scheme://netloc/path?query#fragment` with every component
optional. -/
def urlparse (s : String) : ParsedURL :=
  let cs := s.data
  let scheme := (splitScheme cs).1
  let rest1 := (splitScheme cs).2
  let netloc :=
    if startsWithCs rest1 ['/', '/'] then
      (rest1.drop 2).takeWhile (fun c => c ≠ '/' && c ≠ '?' && c ≠ '#')
    else []
  let rest2 :=
    if startsWithCs rest1 ['/', '/'] then
      (rest1.drop 2).dropWhile (fun c => c ≠ '/' && c ≠ '?' && c ≠ '#')
    else rest1
  let path := rest2.takeWhile (fun c => c ≠ '?' && c ≠ '#')
  let rest3 := rest2.dropWhile (fun c => c ≠ '?' && c ≠ '#')
  let query :=
    match rest3 with
    | '?' :: r => r.takeWhile (· ≠ '#')
    | _ => []
  let rest4 :=
    match rest3 with
    | '?' :: r => r.dropWhile (· ≠ '#')
    | _ => rest3
  let fragment :=
    match rest4 with
    | '#' :: r => r
    | _ => []
  ⟨scheme, netloc, path, query, fragment⟩

/-- Model of `urllib.parse.urlunparse` on the component shapes produced
above (empty `params`), mirroring CPython's `urlunsplit`: with an
authority present the path gets a leading slash when it lacks one. -/
def unparseTail (netloc path query fragment : List Char) : List Char :=
  (if netloc ≠ [] || startsWithCs path ['/', '/'] then
     '/' :: '/' :: netloc ++
       (if path ≠ [] && ¬ startsWithCs path ['/'] then '/' :: path else path)
   else path) ++
  (if query ≠ [] then '?' :: query else []) ++
  (if fragment ≠ [] then '#' :: fragment else [])

def urlunparse (scheme netloc path query fragment : List Char) : String :=
  ⟨(if scheme ≠ [] then scheme ++ [':'] else []) ++
   unparseTail netloc path query fragment⟩

/-- Resolve one relative-path segment list the way `urljoin` does:
`..` pops, `.` vanishes, anything else is appended. -/
def resolveSegments (segs : List (List Char)) : List (List Char) :=
  segs.foldl
    (fun acc seg =>
      if seg = ['.', '.'] then acc.dropLast
      else if seg = ['.'] then acc
      else acc ++ [seg])
    []

/-- Split a path on `/`. -/
def splitSlash (cs : List Char) : List (List Char) :=
  match cs with
  | [] => [[]]
  | '/' :: rest => [] :: splitSlash rest
  | c :: rest =>
    match splitSlash rest with
    | l :: ls => (c :: l) :: ls
    | [] => [[c]]

/-- Join path segments with `/`. -/
def joinSlash (ls : List (List Char)) : List Char :=
  match ls with
  | [] => []
  | [l] => l
  | l :: ls => l ++ '/' :: joinSlash ls

/-- Model of `urllib.parse.urljoin` for http/https bases, following the
CPython algorithm: a reference carrying a different scheme is returned
unchanged; a netloc-bearing reference keeps its own authority; an empty
path inherits the base path (and query, when the reference has none);
otherwise relative paths are merged against the base path with `.`/`..`
resolution. -/
def urljoin (base url : String) : String :=
  if base = "" then url
  else if url = "" then base
  else
    let b := urlparse base
    let u := urlparse url
    if u.scheme ≠ [] && u.scheme ≠ b.scheme then url
    else
      let scheme := b.scheme
      if u.netloc ≠ [] then
        urlunparse scheme u.netloc u.path u.query u.fragment
      else
        let netloc := b.netloc
        if u.path = [] then
          let query := if u.query ≠ [] then u.query else b.query
          urlunparse scheme netloc b.path query u.fragment
        else if startsWithCs u.path ['/'] then
          let segs := splitSlash u.path
          urlunparse scheme netloc (joinSlash (mergeDots segs)) u.query u.fragment
        else
          let baseSegs :=
            let bp := splitSlash b.path
            if bp.getLast? = some [] then bp else bp.dropLast
          let segs := baseSegs ++ splitSlash u.path
          let segs :=
            match segs with
            | s0 :: rest =>
              match rest.reverse with
              | last :: mid => s0 :: ((mid.reverse.filter (· ≠ [])) ++ [last])
              | [] => [s0]
            | [] => []
          urlunparse scheme netloc (joinSlash (mergeDots segs)) u.query u.fragment
where
  /-- Dot-segment resolution plus CPython's trailing empty segment when the
  last segment is a dot segment, and the slash fallback for an empty result. -/
  mergeDots (segs : List (List Char)) : List (List Char) :=
    let resolved := resolveSegments segs
    let resolved :=
      if segs.getLast? = some ['.'] || segs.getLast? = some ['.', '.'] then
        resolved ++ [[]]
      else resolved
    match joinSlash resolved with
    | [] => [[], []]
    | _ => resolved

end Url2md

namespace Url2md

/-- State of `URLQueue` (`url2md.py`, lines 1186–1291): a pending list of
`(normalized url, depth)` pairs, the visited set (modelled as the list of
its insertions — the source only tests membership and adds fresh
elements), and the immutable crawl scope. -/
structure URLQueue where
  urls : List (String × Nat)
  visited : List String
  base_domain : List Char
  base_path : List Char
  max_depth : Nat
  deriving Repr, DecidableEq

/-- `URLQueue.__init__(start_url, max_depth)`: derive `base_domain` and
`base_path` from the seed URL; `base_path` is the seed path without
trailing slashes plus `'/'`, special-cased back to `'/'` when that yields
`'//'`. -/
def mkURLQueue (start_url : String) (max_depth : Nat) : URLQueue :=
  let parsed := urlparse start_url
  let bp := rstripChar '/' parsed.path ++ ['/']
  let bp := if bp = ['/', '/'] then ['/'] else bp
  ⟨[], [], parsed.netloc, bp, max_depth⟩

/-- Normalization performed at the top of `URLQueue.add`: re-assemble the
parsed URL with the path's trailing slashes removed, the query kept, and
the params and fragment dropped. -/
def normalizeURL (url : String) : String :=
  let parsed := urlparse url
  urlunparse parsed.scheme parsed.netloc (rstripChar '/' parsed.path) parsed.query []

/-- `URLQueue.add(url, depth)` (`url2md.py`, lines 1217–1261): normalize,
then reject when already visited, off-domain, outside the base path, or
beyond a positive depth limit; otherwise append to the pending list and
the visited set. -/
def addURL (q : URLQueue) (url : String) (depth : Nat) : Bool × URLQueue :=
  let parsed := urlparse url
  let normalized := normalizeURL url
  if q.visited.contains normalized then (false, q)
  else if parsed.netloc ≠ q.base_domain then (false, q)
  else if ¬ startsWithCs parsed.path q.base_path then (false, q)
  else if q.max_depth > 0 && depth > q.max_depth then (false, q)
  else
    (true, { q with urls := q.urls ++ [(normalized, depth)],
                    visited := q.visited ++ [normalized] })

/-- `URLQueue.get_next()`: FIFO pop (`None` when empty). -/
def getNext (q : URLQueue) : Option (String × Nat) × URLQueue :=
  match q.urls with
  | [] => (none, q)
  | e :: rest => (some e, { q with urls := rest })

/-- `sanitize_filename(title)` (`url2md.py`, lines 154–177): drop
characters outside `\w`, whitespace and dash; collapse runs of
whitespace, underscore and colon to a single dash; lowercase; trim
dashes; truncate to 100 characters; fall back to `untitled`. -/
def sanitize_filename (title : String) : String :=
  let cs := title.data.filter (fun c => isWordChar c || isPySpace c || c = '-')
  let cs := dashRuns cs false
  let cs := rstripChar '-' (lstripChar '-' (pyLower cs))
  if cs = [] then "untitled" else ⟨cs.take 100⟩
where
  /-- Scanner for `re.sub(r'[\s_:]+', '-', ·)`: a maximal run of
  whitespace/underscore/colon becomes one dash. -/
  dashRuns : List Char → Bool → List Char
  | [], _ => []
  | c :: cs, inRun =>
    if isPySpace c || c = '_' || c = ':' then
      if inRun then dashRuns cs true else '-' :: dashRuns cs true
    else
      c :: dashRuns cs false

end Url2md

namespace Url2md

theorem charToNat_ofNat (n : Nat) (h : n < 256) : (Char.ofNat n).toNat = n := by
  have hv : n.isValidChar := Or.inl (by omega)
  simp only [Char.ofNat, hv, dif_pos, Char.toNat, Char.ofNatAux]
  rfl

/-- Disjunction of the four rejection tests of `URLQueue.add`. -/
def addRejected (q : URLQueue) (url : String) (depth : Nat) : Bool :=
  q.visited.contains (normalizeURL url) ||
  (urlparse url).netloc != q.base_domain ||
  !startsWithCs (urlparse url).path q.base_path ||
  (decide (q.max_depth > 0) && decide (depth > q.max_depth))

theorem addURL_spec (q : URLQueue) (url : String) (depth : Nat) :
    addURL q url depth =
      if addRejected q url depth then (false, q)
      else (true, { q with urls := q.urls ++ [(normalizeURL url, depth)],
                           visited := q.visited ++ [normalizeURL url] }) := by
  unfold addURL addRejected
  by_cases h1 : normalizeURL url ∈ q.visited <;>
  by_cases h2 : (urlparse url).netloc = q.base_domain <;>
  by_cases h3 : startsWithCs (urlparse url).path q.base_path = true <;>
  by_cases h4 : 0 < q.max_depth ∧ q.max_depth < depth <;>
  simp_all

end Url2md

namespace Url2md

/-- C1 counterexample: `http://example.com/a` and `https://example.com/a`
agree on host, trailing-slash-stripped path and query, yet a frontier
seeded with `https://example.com/` accepts both adds and ends up with two
pending entries, because the normalized URL retains the scheme. -/
theorem C1_scheme_counterexample :
    ((urlparse "http://example.com/a").netloc
        = (urlparse "https://example.com/a").netloc
      ∧ rstripChar '/' (urlparse "http://example.com/a").path
        = rstripChar '/' (urlparse "https://example.com/a").path
      ∧ (urlparse "http://example.com/a").query
        = (urlparse "https://example.com/a").query)
    ∧ (addURL (mkURLQueue "https://example.com/" 0) "http://example.com/a" 1).1
        = true
    ∧ (addURL (addURL (mkURLQueue "https://example.com/" 0)
          "http://example.com/a" 1).2 "https://example.com/a" 1).1 = true
    ∧ (addURL (addURL (mkURLQueue "https://example.com/" 0)
          "http://example.com/a" 1).2 "https://example.com/a" 1).2.urls.length
        = 2 := by
  decide

/-- C1 (amended): two URL spellings whose normalizations (scheme kept,
fragment dropped, trailing slashes of the path stripped, query kept) are
equal cannot both be enqueued: once the first `add` is accepted, the
second returns false and changes nothing, so exactly one entry is appended
and the normalized URL enters the visited set exactly once.  (URLs that
differ in scheme normalize differently and are not covered — see the
counterexample.) -/
theorem addURL_reject (q : URLQueue) (url : String) (depth : Nat)
    (h : addRejected q url depth = true) : addURL q url depth = (false, q) := by
  rw [addURL_spec, h]
  simp

theorem addURL_accept (q : URLQueue) (url : String) (depth : Nat)
    (h : addRejected q url depth = false) :
    addURL q url depth =
      (true, { q with urls := q.urls ++ [(normalizeURL url, depth)],
                      visited := q.visited ++ [normalizeURL url] }) := by
  rw [addURL_spec, h]
  simp

theorem C1_add_dedup (q : URLQueue) (u1 u2 : String) (d1 d2 : Nat)
    (hnorm : normalizeURL u1 = normalizeURL u2)
    (hacc : (addURL q u1 d1).1 = true) :
    addURL (addURL q u1 d1).2 u2 d2 = (false, (addURL q u1 d1).2)
    ∧ (addURL q u1 d1).2.urls = q.urls ++ [(normalizeURL u1, d1)]
    ∧ (addURL q u1 d1).2.visited = q.visited ++ [normalizeURL u1]
    ∧ normalizeURL u1 ∉ q.visited := by
  by_cases hr : addRejected q u1 d1 = true
  · rw [addURL_reject q u1 d1 hr] at hacc
    simp at hacc
  · rw [Bool.not_eq_true] at hr
    have hvis : normalizeURL u1 ∉ q.visited := by
      have hcomp := hr
      unfold addRejected at hcomp
      simp only [Bool.or_eq_false_iff] at hcomp
      simpa using hcomp.1.1.1
    rw [addURL_accept q u1 d1 hr]
    refine ⟨?_, rfl, rfl, hvis⟩
    apply addURL_reject
    unfold addRejected
    rw [← hnorm]
    simp

/-- Witness for `C1_add_dedup`: `https://example.com/a/#x` and
`https://example.com/a` normalize identically; after the first is
accepted the second add is rejected without side effect. -/
theorem C1_add_dedup_witness :
    addURL (addURL (mkURLQueue "https://example.com/" 0)
        "https://example.com/a/#x" 1).2 "https://example.com/a" 2
      = (false, (addURL (mkURLQueue "https://example.com/" 0)
        "https://example.com/a/#x" 1).2) :=
  (C1_add_dedup (mkURLQueue "https://example.com/" 0)
    "https://example.com/a/#x" "https://example.com/a" 1 2
    (by decide) (by decide)).1

end Url2md

namespace Url2md

/-- C3: `URLQueue.add` rejects — returning false with no side effect —
exactly when the normalized URL is already visited, the host differs from
`base_domain`, the raw path does not start with `base_path`, or
`max_depth` is positive and exceeded; otherwise it appends the normalized
entry, marks it visited and returns true.  In particular a frontier seeded
with `https://example.com/blog/` rejects `https://example.com/blog2/post`
at every depth and accepts `https://example.com/blog/post` at depth 1 for
every positive `max_depth`. -/
theorem C3_add_filter_characterization :
    (∀ (q : URLQueue) (url : String) (depth : Nat),
       addURL q url depth =
         if q.visited.contains (normalizeURL url) ||
            (urlparse url).netloc != q.base_domain ||
            !startsWithCs (urlparse url).path q.base_path ||
            (decide (q.max_depth > 0) && decide (depth > q.max_depth)) then
           (false, q)
         else
           (true, { q with urls := q.urls ++ [(normalizeURL url, depth)],
                           visited := q.visited ++ [normalizeURL url] }))
    ∧ (∀ depth : Nat,
        (addURL (mkURLQueue "https://example.com/blog/" 0)
          "https://example.com/blog2/post" depth).1 = false)
    ∧ (∀ m : Nat,
        (addURL (mkURLQueue "https://example.com/blog/" (m + 1))
          "https://example.com/blog/post" 1).1 = true) := by
  refine ⟨fun q url depth => addURL_spec q url depth, fun depth => ?_, fun m => ?_⟩
  · rw [addURL_reject]
    unfold addRejected
    rw [show (!startsWithCs (urlparse "https://example.com/blog2/post").path
        (mkURLQueue "https://example.com/blog/" 0).base_path) = true from by decide]
    simp
  · have hq : mkURLQueue "https://example.com/blog/" (m + 1)
      = ⟨[], [], ['e','x','a','m','p','l','e','.','c','o','m'],
          ['/','b','l','o','g','/'], m + 1⟩ := rfl
    rw [hq, addURL_accept]
    unfold addRejected
    rw [show (decide ((1 : Nat) > m + 1)) = false from by
      simp [show ¬ ((1 : Nat) > m + 1) from by omega]]
    rw [show ((urlparse "https://example.com/blog/post").netloc
        != (['e','x','a','m','p','l','e','.','c','o','m'] : List Char)) = false from by decide]
    rw [show (!startsWithCs (urlparse "https://example.com/blog/post").path
        (['/','b','l','o','g','/'] : List Char)) = false from by decide]
    simp

end Url2md

namespace Url2md

/-- A character that `sanitize_filename`'s output may never contain:
no whitespace, no colon, no underscore. -/
def noSepChar (c : Char) : Bool :=
  !isPySpace c && c != ':' && c != '_'

theorem lowerRange_noSep (x : Char) (hx1 : 97 ≤ x.toNat) (hx2 : x.toNat ≤ 122) :
    noSepChar x = true := by
  have hsp : isPySpace x = false := by
    unfold isPySpace
    simp only [Bool.or_eq_false_iff, decide_eq_false_iff_not]
    refine ⟨⟨⟨⟨⟨?_, ?_⟩, ?_⟩, ?_⟩, ?_⟩, ?_⟩ <;>
      first
      | exact fun heq => by subst heq; exact absurd hx1 (by decide)
  have hc : x ≠ ':' := fun heq => by subst heq; exact absurd hx1 (by decide)
  have hu : x ≠ '_' := fun heq => by subst heq; exact absurd hx1 (by decide)
  simp [noSepChar, hsp, hc, hu]

theorem dashRuns_noSep : ∀ (cs : List Char) (b : Bool),
    (sanitize_filename.dashRuns cs b).all noSepChar = true := by
  intro cs
  induction cs with
  | nil => intro b; rfl
  | cons c cs ih =>
    intro b
    unfold sanitize_filename.dashRuns
    by_cases h : (isPySpace c || c = '_' || c = ':') = true
    · cases b <;> simp [h, ih, show noSepChar '-' = true from by decide]
    · rw [if_neg h]
      simp only [Bool.or_eq_true, decide_eq_true_eq, not_or, Bool.not_eq_true] at h
      simp only [List.all_cons, ih, Bool.and_true]
      simp [noSepChar, h.1.1, h.1.2, h.2]

theorem pyLowerChar_noSep (c : Char) (h : noSepChar c = true) :
    noSepChar (pyLowerChar c) = true := by
  unfold pyLowerChar
  by_cases h1 : (c.toNat ≥ 65 && c.toNat ≤ 90) = true
  · rw [if_pos h1]
    simp only [Bool.and_eq_true, decide_eq_true_eq, ge_iff_le] at h1
    have ht : (Char.ofNat (c.toNat + 32)).toNat = c.toNat + 32 :=
      charToNat_ofNat _ (by omega)
    exact lowerRange_noSep _ (by rw [ht]; omega) (by rw [ht]; omega)
  · rw [if_neg h1]
    by_cases e0 : c = 'É'
    · subst e0; decide
    rw [if_neg e0]
    by_cases e1 : c = 'È'
    · subst e1; decide
    rw [if_neg e1]
    by_cases e2 : c = 'Ê'
    · subst e2; decide
    rw [if_neg e2]
    by_cases e3 : c = 'Ë'
    · subst e3; decide
    rw [if_neg e3]
    by_cases e4 : c = 'À'
    · subst e4; decide
    rw [if_neg e4]
    by_cases e5 : c = 'Â'
    · subst e5; decide
    rw [if_neg e5]
    by_cases e6 : c = 'Ä'
    · subst e6; decide
    rw [if_neg e6]
    by_cases e7 : c = 'Ô'
    · subst e7; decide
    rw [if_neg e7]
    by_cases e8 : c = 'Ö'
    · subst e8; decide
    rw [if_neg e8]
    by_cases e9 : c = 'Û'
    · subst e9; decide
    rw [if_neg e9]
    by_cases e10 : c = 'Ü'
    · subst e10; decide
    rw [if_neg e10]
    by_cases e11 : c = 'Ç'
    · subst e11; decide
    rw [if_neg e11]
    by_cases e12 : c = 'Î'
    · subst e12; decide
    rw [if_neg e12]
    by_cases e13 : c = 'Ï'
    · subst e13; decide
    rw [if_neg e13]
    exact h

end Url2md

namespace Url2md

/-- C8: sanitizing `"Article: Python Tips & Tricks"` yields
`"article-python-tips-tricks"`, and for every input the result is
non-empty, at most 100 characters long, and free of whitespace, colons
and underscores. -/
theorem C8_sanitize_filename :
    sanitize_filename "Article: Python Tips & Tricks" = "article-python-tips-tricks"
    ∧ ∀ s : String,
        sanitize_filename s ≠ ""
        ∧ (sanitize_filename s).length ≤ 100
        ∧ (sanitize_filename s).data.all noSepChar = true := by
  refine ⟨by decide, fun s => ?_⟩
  unfold sanitize_filename
  set l1 := sanitize_filename.dashRuns
    (s.data.filter (fun c => isWordChar c || isPySpace c || c = '-')) false with hl1
  set l2 := rstripChar '-' (lstripChar '-' (pyLower l1)) with hl2
  by_cases h : l2 = []
  · rw [if_pos h]
    exact ⟨by decide, by decide, by decide⟩
  · rw [if_neg h]
    have hmem : ∀ x ∈ l2.take 100, noSepChar x = true := by
      have hall1 : l1.all noSepChar = true := dashRuns_noSep _ false
      intro x hx
      have hx2 : x ∈ l2 := List.take_subset _ _ hx
      rw [hl2] at hx2
      unfold rstripChar lstripChar at hx2
      have hx3 := (List.dropWhile_sublist _).subset (List.mem_reverse.mp hx2)
      have hx4 := (List.dropWhile_sublist _).subset (List.mem_reverse.mp hx3)
      rcases List.mem_map.mp hx4 with ⟨y, hy, rfl⟩
      exact pyLowerChar_noSep y ((List.all_eq_true.mp hall1) y hy)
    refine ⟨?_, ?_, ?_⟩
    · intro heq
      have hdata : l2.take 100 = [] := by
        simpa using congrArg String.data heq
      rcases List.take_eq_nil_iff.mp hdata with h100 | hnil
      · exact absurd h100 (by norm_num)
      · exact h hnil
    · show (String.mk (l2.take 100)).length ≤ 100
      show (l2.take 100).length ≤ 100
      exact List.length_take_le _ _
    · exact List.all_eq_true.mpr hmem

end Url2md

namespace Url2md

/-- An XML document as `parse_sitemap` inspects it through BeautifulSoup:
the `<sitemap>` tags' first `<loc>` texts (`none` when a `<sitemap>` has
no `<loc>`) and the `<url>` tags' first `<loc>` texts. -/
structure SitemapDoc where
  sitemaps : List (Option String)
  urls : List (Option String)
  deriving Repr, DecidableEq

/-- Loop body of `parse_sitemap`'s simple-sitemap branch: keep a `<loc>`
text when present and non-empty, stripped, and — when a filter path is
given — only when the URL's path starts with it. -/
def sitemapStep (filter_path : String) (acc : List String) (loc : Option String) :
    List String :=
  match loc with
  | some t =>
    if t ≠ "" then
      let url : String := ⟨pyStrip t.data⟩
      if filter_path ≠ "" &&
          !startsWithCs (urlparse url).path filter_path.data then acc
      else acc ++ [url]
    else acc
  | none => acc

/-- `parse_sitemap(sitemap_url, filter_path)` (`url2md.py`, lines
1075–1141).  The HTTP fetch plus XML parse is modelled by the explicit
map `net` (`none` = the `try` block raises, which the function's own
`except` turns into `[]`).  The source recurses on sub-sitemap URLs with
no cycle guard, so the embedding carries explicit fuel; every theorem
about it supplies enough fuel for the documents involved.  An empty
`filter_path` behaves as no filter, matching Python's truthiness test. -/
def parse_sitemap (net : String → Option SitemapDoc) :
    Nat → String → String → List String
  | 0, _, _ => []
  | fuel + 1, sitemap_url, filter_path =>
    match net sitemap_url with
    | none => []
    | some doc =>
      if doc.sitemaps ≠ [] then
        (doc.sitemaps.map (fun loc =>
          match loc with
          | some t => if t ≠ "" then
              parse_sitemap net fuel ⟨pyStrip t.data⟩ filter_path
            else []
          | none => [])).flatten
      else
        doc.urls.foldl (sitemapStep filter_path) []

end Url2md

namespace Url2md

/-- Keep-function mirror of `sitemapStep` used to state its effect. -/
def sitemapLoc (loc : Option String) : Option String :=
  match loc with
  | some t => if t ≠ "" then some (⟨pyStrip t.data⟩ : String) else none
  | none => none

/-- Filter predicate mirror of `sitemapStep`'s skip test. -/
def sitemapPred (fp : String) (u : String) : Bool :=
  decide (fp = "") || startsWithCs (urlparse u).path fp.data

theorem sitemapStep_none (fp : String) (acc : List String) :
    sitemapStep fp acc none = acc := rfl

theorem sitemapStep_some (fp : String) (acc : List String) (t : String) :
    sitemapStep fp acc (some t) =
      match sitemapLoc (some t) with
      | some u => if sitemapPred fp u then acc ++ [u] else acc
      | none => acc := by
  unfold sitemapStep sitemapLoc sitemapPred
  by_cases ht : t = ""
  · simp [ht]
  · simp only [ne_eq, ht, not_false_eq_true, if_true]
    by_cases hf : (decide (fp ≠ "") &&
        !startsWithCs (urlparse (⟨pyStrip t.data⟩ : String)).path fp.data) = true
    · simp only [Bool.and_eq_true, Bool.not_eq_true', decide_eq_true_eq, ne_eq] at hf
      simp [hf.1, hf.2]
    · rw [Bool.not_eq_true, Bool.and_eq_false_iff] at hf
      rcases hf with h1 | h2
      · simp only [decide_eq_false_iff_not, ne_eq, Decidable.not_not] at h1
        subst h1
        simp
      · have h2' : startsWithCs (urlparse (⟨pyStrip t.data⟩ : String)).path fp.data
            = true := by simpa using h2
        simp [h2']

theorem sitemapFold (fp : String) (us : List (Option String)) (acc : List String) :
    us.foldl (sitemapStep fp) acc
      = acc ++ (us.filterMap sitemapLoc).filter (sitemapPred fp) := by
  induction us generalizing acc with
  | nil => simp
  | cons o rest ih =>
    cases o with
    | none =>
      simp only [List.foldl_cons, sitemapStep_none, List.filterMap_cons, sitemapLoc]
      exact ih acc
    | some t =>
      simp only [List.foldl_cons, sitemapStep_some, List.filterMap_cons]
      cases hu : sitemapLoc (some t) with
      | none => exact ih acc
      | some u =>
        by_cases hp : sitemapPred fp u = true
        · simp [hp, ih, List.filter_cons]
        · rw [Bool.not_eq_true] at hp
          simp [hp, ih, List.filter_cons]

end Url2md

namespace Url2md

/-- C9: sitemap resolution.  (a) A failing top-level fetch/parse yields
`[]`.  (b) A sitemap index resolves each child `<loc>` recursively and
concatenates the sub-results in document order — stated for the claim's
two-entry index.  (c) A simple sitemap yields each non-empty `<url><loc>`
text, stripped, keeping — when a filter path is given — only URLs whose
path starts with it. -/
theorem C9_parse_sitemap_resolution :
    (∀ (net : String → Option SitemapDoc) (fuel : Nat) (url fp : String),
       net url = none → parse_sitemap net (fuel + 1) url fp = [])
    ∧ (∀ (net : String → Option SitemapDoc) (fuel : Nat) (url fp l1 l2 : String)
        (us : List (Option String)),
       net url = some ⟨[some l1, some l2], us⟩ → l1 ≠ "" → l2 ≠ "" →
       parse_sitemap net (fuel + 1) url fp =
         parse_sitemap net fuel ⟨pyStrip l1.data⟩ fp ++
         parse_sitemap net fuel ⟨pyStrip l2.data⟩ fp)
    ∧ (∀ (net : String → Option SitemapDoc) (fuel : Nat) (url fp : String)
        (us : List (Option String)),
       net url = some ⟨[], us⟩ →
       parse_sitemap net (fuel + 1) url fp =
         (us.filterMap sitemapLoc).filter (sitemapPred fp)) := by
  refine ⟨fun net fuel url fp h => ?_, fun net fuel url fp l1 l2 us h h1 h2 => ?_,
    fun net fuel url fp us h => ?_⟩
  · simp [parse_sitemap, h]
  · simp [parse_sitemap, h, h1, h2]
  · simp only [parse_sitemap, h]
    rw [if_neg (by simp)]
    exact sitemapFold fp us []

/-- Concrete two-level sitemap world for the `C9` witness: an index with
two children, each a simple sitemap listing three URLs. -/
def sitemapExampleNet : String → Option SitemapDoc := fun u =>
  if u = "https://ex.com/sitemap.xml" then
    some ⟨[some "https://ex.com/s1.xml", some "https://ex.com/s2.xml"], []⟩
  else if u = "https://ex.com/s1.xml" then
    some ⟨[], [some "https://ex.com/blog/a", some "https://ex.com/blog/b",
               some "https://ex.com/docs/c"]⟩
  else if u = "https://ex.com/s2.xml" then
    some ⟨[], [some "https://ex.com/blog/d", some "https://ex.com/x",
               some "https://ex.com/blog/e"]⟩
  else none

/-- Witness for `C9_parse_sitemap_resolution`: the index with 2 × 3 URLs
flattens to six URLs without a filter and to the four `/blog/` URLs with
one, and an unfetchable sitemap URL yields `[]`. -/
theorem C9_parse_sitemap_witness :
    parse_sitemap sitemapExampleNet 2 "https://ex.com/sitemap.xml" "" =
      ["https://ex.com/blog/a", "https://ex.com/blog/b", "https://ex.com/docs/c",
       "https://ex.com/blog/d", "https://ex.com/x", "https://ex.com/blog/e"]
    ∧ parse_sitemap sitemapExampleNet 2 "https://ex.com/sitemap.xml" "/blog/" =
      ["https://ex.com/blog/a", "https://ex.com/blog/b",
       "https://ex.com/blog/d", "https://ex.com/blog/e"]
    ∧ parse_sitemap sitemapExampleNet 2 "https://ex.com/missing.xml" "" = [] := by
  refine ⟨?_, ?_, ?_⟩
  · rw [C9_parse_sitemap_resolution.2.1 sitemapExampleNet 1 "https://ex.com/sitemap.xml"
      "" "https://ex.com/s1.xml" "https://ex.com/s2.xml" [] (by decide) (by decide)
      (by decide)]
    decide
  · rw [C9_parse_sitemap_resolution.2.1 sitemapExampleNet 1 "https://ex.com/sitemap.xml"
      "/blog/" "https://ex.com/s1.xml" "https://ex.com/s2.xml" [] (by decide) (by decide)
      (by decide)]
    decide
  · exact C9_parse_sitemap_resolution.1 sitemapExampleNet 1 "https://ex.com/missing.xml"
      "" (by decide)

end Url2md

namespace Url2md

/-- Loop body of `extract_links` (`url2md.py`, lines 1144–1180): resolve
the anchor's `href` against the base URL, keep only http/https schemes,
and add the fragment-stripped reassembly to the set (modelled as an
insertion-ordered duplicate-free list, matching Python's `set.add`
up to iteration order). -/
def linkStep (base_url : String) (links : List String) (href : String) : List String :=
  let absolute_url := urljoin base_url href
  let parsed := urlparse absolute_url
  if ¬ (parsed.scheme = "http".data ∨ parsed.scheme = "https".data) then links
  else
    let clean_url := urlunparse parsed.scheme parsed.netloc parsed.path parsed.query []
    if links.contains clean_url then links else links ++ [clean_url]

/-- `extract_links(soup, base_url)`: the parsed document is abstracted to
the list of its anchors' `href` attributes in document order. -/
def extract_links (soup_hrefs : List String) (base_url : String) : List String :=
  soup_hrefs.foldl (linkStep base_url) []

/-- The contribution of one anchor: `some` of the fragment-stripped
resolved URL when its scheme is http/https, `none` otherwise. -/
def linkOf (base_url href : String) : Option String :=
  let parsed := urlparse (urljoin base_url href)
  if parsed.scheme = "http".data ∨ parsed.scheme = "https".data then
    some (urlunparse parsed.scheme parsed.netloc parsed.path parsed.query [])
  else none

theorem linkStep_none (base href : String) (links : List String)
    (h : linkOf base href = none) : linkStep base links href = links := by
  unfold linkOf at h
  unfold linkStep
  by_cases hs : (urlparse (urljoin base href)).scheme = "http".data ∨
      (urlparse (urljoin base href)).scheme = "https".data
  · simp [hs] at h
  · simp [hs]

theorem linkStep_some (base href v : String) (links : List String)
    (h : linkOf base href = some v) :
    linkStep base links href = if links.contains v then links else links ++ [v] := by
  unfold linkOf at h
  unfold linkStep
  by_cases hs : (urlparse (urljoin base href)).scheme = "http".data ∨
      (urlparse (urljoin base href)).scheme = "https".data
  · simp only [hs, if_true] at h
    cases h
    simp [hs]
  · simp [hs] at h

theorem extract_links_go_mem (base : String) (hrefs : List String) :
    ∀ (acc : List String) (u : String),
      u ∈ hrefs.foldl (linkStep base) acc ↔
        u ∈ acc ∨ ∃ href ∈ hrefs, linkOf base href = some u := by
  induction hrefs with
  | nil => simp
  | cons h hs ih =>
    intro acc u
    rw [List.foldl_cons]
    cases hl : linkOf base h with
    | none =>
      rw [linkStep_none base h acc hl, ih]
      constructor
      · rintro (ha | ⟨href, hh, he⟩)
        · exact Or.inl ha
        · exact Or.inr ⟨href, List.mem_cons_of_mem _ hh, he⟩
      · rintro (ha | ⟨href, hh, he⟩)
        · exact Or.inl ha
        · rcases List.mem_cons.mp hh with rfl | hh'
          · rw [hl] at he; cases he
          · exact Or.inr ⟨href, hh', he⟩
    | some v =>
      rw [linkStep_some base h v acc hl]
      by_cases hc : acc.contains v = true
      · rw [if_pos hc, ih]
        have hv : v ∈ acc := by simpa using hc
        constructor
        · rintro (ha | ⟨href, hh, he⟩)
          · exact Or.inl ha
          · exact Or.inr ⟨href, List.mem_cons_of_mem _ hh, he⟩
        · rintro (ha | ⟨href, hh, he⟩)
          · exact Or.inl ha
          · rcases List.mem_cons.mp hh with rfl | hh'
            · rw [hl] at he; cases he; exact Or.inl hv
            · exact Or.inr ⟨href, hh', he⟩
      · rw [if_neg hc, ih]
        constructor
        · rintro (ha | ⟨href, hh, he⟩)
          · rcases List.mem_append.mp ha with ha' | ha'
            · exact Or.inl ha'
            · rcases List.mem_singleton.mp ha' with rfl
              exact Or.inr ⟨h, List.mem_cons_self _ _, hl⟩
          · exact Or.inr ⟨href, List.mem_cons_of_mem _ hh, he⟩
        · rintro (ha | ⟨href, hh, he⟩)
          · exact Or.inl (List.mem_append.mpr (Or.inl ha))
          · rcases List.mem_cons.mp hh with rfl | hh'
            · rw [hl] at he
              cases he
              exact Or.inl (List.mem_append.mpr (Or.inr (List.mem_singleton.mpr rfl)))
            · exact Or.inr ⟨href, hh', he⟩

theorem extract_links_go_nodup (base : String) (hrefs : List String) :
    ∀ acc : List String, acc.Nodup → (hrefs.foldl (linkStep base) acc).Nodup := by
  induction hrefs with
  | nil => intro acc h; simpa using h
  | cons h hs ih =>
    intro acc hacc
    rw [List.foldl_cons]
    cases hl : linkOf base h with
    | none =>
      rw [linkStep_none base h acc hl]
      exact ih acc hacc
    | some v =>
      rw [linkStep_some base h v acc hl]
      by_cases hc : acc.contains v = true
      · rw [if_pos hc]; exact ih acc hacc
      · rw [if_neg hc]
        refine ih _ ?_
        rw [List.nodup_append]
        refine ⟨hacc, List.nodup_singleton v, ?_⟩
        intro x hx hx'
        rcases List.mem_singleton.mp hx' with rfl
        exact hc (by simpa using hx)

end Url2md

namespace Url2md

theorem mem_takeWhile_pred {p : Char → Bool} {l : List Char} {x : Char}
    (h : x ∈ l.takeWhile p) : p x = true := by
  induction l with
  | nil => simp [List.takeWhile] at h
  | cons a as ih =>
    rw [List.takeWhile_cons] at h
    by_cases hp : p a = true
    · rw [if_pos hp] at h
      rcases List.mem_cons.mp h with rfl | h'
      · exact hp
      · exact ih h'
    · rw [if_neg hp] at h
      cases h

/-- Intermediate remainders of `urlparse`, named so that the component
projections below are definitional equations. -/
def parseRest1 (s : String) : List Char := (splitScheme s.data).2

def parseRest2 (s : String) : List Char :=
  if startsWithCs (parseRest1 s) ['/', '/'] then
    ((parseRest1 s).drop 2).dropWhile (fun c => c ≠ '/' && c ≠ '?' && c ≠ '#')
  else parseRest1 s

def parseRest3 (s : String) : List Char :=
  (parseRest2 s).dropWhile (fun c => c ≠ '?' && c ≠ '#')

def parseRest4 (s : String) : List Char :=
  match parseRest3 s with
  | '?' :: r => r.dropWhile (· ≠ '#')
  | _ => parseRest3 s

theorem urlparse_scheme_eq (s : String) :
    (urlparse s).scheme = (splitScheme s.data).1 := rfl

theorem urlparse_netloc_eq (s : String) :
    (urlparse s).netloc =
      if startsWithCs (parseRest1 s) ['/', '/'] then
        ((parseRest1 s).drop 2).takeWhile (fun c => c ≠ '/' && c ≠ '?' && c ≠ '#')
      else [] := rfl

theorem urlparse_path_eq (s : String) :
    (urlparse s).path = (parseRest2 s).takeWhile (fun c => c ≠ '?' && c ≠ '#') := rfl

theorem urlparse_query_eq (s : String) :
    (urlparse s).query =
      match parseRest3 s with
      | '?' :: r => r.takeWhile (· ≠ '#')
      | _ => [] := rfl

theorem urlparse_fragment_eq (s : String) :
    (urlparse s).fragment =
      match parseRest4 s with
      | '#' :: r => r
      | _ => [] := rfl

theorem urlparse_no_hash (s : String) :
    '#' ∉ (urlparse s).netloc ∧ '#' ∉ (urlparse s).path ∧ '#' ∉ (urlparse s).query := by
  refine ⟨?_, ?_, ?_⟩
  · rw [urlparse_netloc_eq]
    split
    · intro h
      have := mem_takeWhile_pred h
      simp at this
    · simp
  · rw [urlparse_path_eq]
    intro h
    have := mem_takeWhile_pred h
    simp at this
  · rw [urlparse_query_eq]
    split
    · intro h
      have := mem_takeWhile_pred h
      simp at this
    · simp

theorem splitScheme_snd_subset (cs : List Char) : (splitScheme cs).2 ⊆ cs := by
  unfold splitScheme
  split
  · next after heq =>
    split
    · simp
    · split
      · intro x hx
        have hsub : ':' :: after ⊆ cs := heq ▸ (List.dropWhile_sublist _).subset
        exact hsub (List.mem_cons_of_mem _ hx)
      · simp
  · simp

theorem parseRest4_subset (s : String) : parseRest4 s ⊆ s.data := by
  have h1 : parseRest1 s ⊆ s.data := splitScheme_snd_subset s.data
  have h2 : parseRest2 s ⊆ parseRest1 s := by
    unfold parseRest2
    split
    · exact ((List.dropWhile_sublist _).subset).trans
        (((List.drop_sublist _ _).subset))
    · exact fun x hx => hx
  have h3 : parseRest3 s ⊆ parseRest2 s := (List.dropWhile_sublist _).subset
  have h4 : parseRest4 s ⊆ parseRest3 s := by
    unfold parseRest4
    split
    · next r heq =>
      intro x hx
      rw [heq]
      exact List.mem_cons_of_mem _ ((List.dropWhile_sublist _).subset hx)
    · exact fun x hx => hx
  exact fun x hx => h1 (h2 (h3 (h4 hx)))

/-- A URL string containing no `#` parses with an empty fragment. -/
theorem urlparse_fragment_empty (s : String) (h : '#' ∉ s.data) :
    (urlparse s).fragment = [] := by
  rw [urlparse_fragment_eq]
  split
  · next r heq =>
    exact absurd (parseRest4_subset s (heq ▸ List.mem_cons_self '#' r)) h
  · rfl

end Url2md

namespace Url2md

theorem takeWhile_append_all {α} (p : α → Bool) (xs ys : List α)
    (h : ∀ x ∈ xs, p x = true) :
    (xs ++ ys).takeWhile p = xs ++ ys.takeWhile p := by
  induction xs with
  | nil => simp
  | cons a as ih =>
    rw [List.cons_append, List.takeWhile_cons, if_pos (h a (List.mem_cons_self a as))]
    rw [ih (fun x hx => h x (List.mem_cons_of_mem a hx))]
    rfl

theorem dropWhile_append_all {α} (p : α → Bool) (xs ys : List α)
    (h : ∀ x ∈ xs, p x = true) :
    (xs ++ ys).dropWhile p = ys.dropWhile p := by
  induction xs with
  | nil => simp
  | cons a as ih =>
    rw [List.cons_append, List.dropWhile_cons, if_pos (h a (List.mem_cons_self a as))]
    exact ih (fun x hx => h x (List.mem_cons_of_mem a hx))

theorem splitScheme_append (st rest0 : List Char)
    (hcolon : ∀ x ∈ st, x ≠ ':')
    (hshape : ∃ c cs', st = c :: cs' ∧ (isAsciiLetter c && cs'.all isSchemeChar) = true)
    (hlow : pyLower st = st) :
    splitScheme (st ++ ':' :: rest0) = (st, rest0) := by
  have ht : (st ++ ':' :: rest0).takeWhile (· ≠ ':') = st := by
    rw [takeWhile_append_all _ st _ (fun x hx => by simpa using hcolon x hx)]
    rw [List.takeWhile_cons]
    simp
  have hd : (st ++ ':' :: rest0).dropWhile (· ≠ ':') = ':' :: rest0 := by
    rw [dropWhile_append_all _ st _ (fun x hx => by simpa using hcolon x hx)]
    rw [List.dropWhile_cons]
    simp
  obtain ⟨c, cs', rfl, hv⟩ := hshape
  unfold splitScheme
  rw [ht, hd]
  simp only [hv, if_true]
  rw [hlow]

theorem urlunparse_data (st n pa q f : List Char) (hne : st ≠ []) :
    (urlunparse st n pa q f).data = st ++ ':' :: unparseTail n pa q f := by
  show ((if st ≠ [] then st ++ [':'] else []) ++ unparseTail n pa q f) = _
  rw [if_pos hne]
  simp

theorem urlparse_urlunparse_scheme (st n pa q : List Char)
    (hcolon : ∀ x ∈ st, x ≠ ':')
    (hshape : ∃ c cs', st = c :: cs' ∧ (isAsciiLetter c && cs'.all isSchemeChar) = true)
    (hlow : pyLower st = st) :
    (urlparse (urlunparse st n pa q [])).scheme = st := by
  have hne : st ≠ [] := by obtain ⟨c, cs', rfl, _⟩ := hshape; simp
  rw [urlparse_scheme_eq, urlunparse_data st n pa q [] hne,
    splitScheme_append st _ hcolon hshape hlow]

theorem urlunparse_no_hash (st n pa q : List Char)
    (hs : '#' ∉ st) (hn : '#' ∉ n) (hp : '#' ∉ pa) (hq : '#' ∉ q) :
    '#' ∉ (urlunparse st n pa q []).data := by
  intro h
  rcases List.mem_append.mp h with h1 | h2
  · split at h1
    · rcases List.mem_append.mp h1 with h | h
      · exact hs h
      · simp at h
    · simp at h1
  · unfold unparseTail at h2
    rcases List.mem_append.mp h2 with h3 | h4
    · rcases List.mem_append.mp h3 with h5 | h6
      · split at h5
        · rcases List.mem_cons.mp h5 with h | h
          · simp at h
          rcases List.mem_cons.mp h with h' | h'
          · simp at h'
          rcases List.mem_append.mp h' with h'' | h''
          · exact hn h''
          · split at h''
            · rcases List.mem_cons.mp h'' with h3' | h3'
              · simp at h3'
              · exact hp h3'
            · exact hp h''
        · exact hp h5
      · split at h6
        · rcases List.mem_cons.mp h6 with h | h
          · simp at h
          · exact hq h
        · simp at h6
    · split at h4
      · simp_all
      · simp at h4

theorem linkOf_props (base href u : String) (h : linkOf base href = some u) :
    ((urlparse u).scheme = "http".data ∨ (urlparse u).scheme = "https".data)
    ∧ (urlparse u).fragment = [] := by
  unfold linkOf at h
  by_cases hsch : (urlparse (urljoin base href)).scheme = "http".data ∨
      (urlparse (urljoin base href)).scheme = "https".data
  · rw [if_pos hsch] at h
    cases h
    have hnet := (urlparse_no_hash (urljoin base href)).1
    have hpath := (urlparse_no_hash (urljoin base href)).2.1
    have hquery := (urlparse_no_hash (urljoin base href)).2.2
    constructor
    · rcases hsch with h1 | h1 <;> rw [h1]
      · exact Or.inl (urlparse_urlunparse_scheme _ _ _ _
          (by intro x hx; simp at hx; rcases hx with rfl | rfl | rfl | rfl <;> decide)
          ⟨'h', ['t', 't', 'p'], rfl, by decide⟩ (by decide))
      · exact Or.inr (urlparse_urlunparse_scheme _ _ _ _
          (by intro x hx; simp at hx; rcases hx with rfl | rfl | rfl | rfl | rfl <;> decide)
          ⟨'h', ['t', 't', 'p', 's'], rfl, by decide⟩ (by decide))
    · apply urlparse_fragment_empty
      apply urlunparse_no_hash
      · rcases hsch with h1 | h1 <;> rw [h1] <;> decide
      · exact hnet
      · exact hpath
      · exact hquery
  · rw [if_neg hsch] at h
    cases h

/-- C10: every URL returned by `extract_links` is the fragment-stripped
resolution of some anchor's `href` against the base URL (anchors whose
resolved scheme is not http/https contribute nothing), parses with an
http/https scheme and an empty fragment, and the result is duplicate-free,
so spellings that resolve and strip identically contribute one element.
The closing conjunct exercises mailto/tel/javascript exclusion and
fragment-level deduplication concretely. -/
theorem C10_extract_links :
    (∀ (hrefs : List String) (base u : String),
        u ∈ extract_links hrefs base ↔ ∃ href ∈ hrefs, linkOf base href = some u)
    ∧ (∀ (hrefs : List String) (base : String), (extract_links hrefs base).Nodup)
    ∧ (∀ (hrefs : List String) (base u : String), u ∈ extract_links hrefs base →
        ((urlparse u).scheme = "http".data ∨ (urlparse u).scheme = "https".data)
        ∧ (urlparse u).fragment = [])
    ∧ extract_links ["mailto:a@b.c", "tel:+123", "javascript:void(0)", "/x#frag", "/x"]
        "https://e.com/dir/page" = ["https://e.com/x"] := by
  refine ⟨fun hrefs base u => ?_, fun hrefs base => ?_, fun hrefs base u hu => ?_, by decide⟩
  · unfold extract_links
    rw [extract_links_go_mem]
    simp
  · exact extract_links_go_nodup base hrefs [] List.nodup_nil
  · unfold extract_links at hu
    rcases (extract_links_go_mem base hrefs [] u).mp hu with h | ⟨href, _, he⟩
    · simp at h
    · exact linkOf_props base href u he

/-- Witness for `C10_extract_links`: the member produced from `/x` indeed
parses with scheme `https` and an empty fragment. -/
theorem C10_extract_links_witness :
    ((urlparse "https://e.com/x").scheme = "http".data ∨
      (urlparse "https://e.com/x").scheme = "https".data)
    ∧ (urlparse "https://e.com/x").fragment = [] :=
  C10_extract_links.2.2.1 ["/x"] "https://e.com/dir/page" "https://e.com/x" (by decide)

end Url2md

namespace Url2md

/-- Scanner for `re.sub(r'\n{3,}', repl, ·)`: a maximal run of three or
more newlines becomes `repl`; shorter runs are kept.  `pending` counts
newlines seen so far in the current run. -/
def collapseRunsTo (repl : List Char) : Nat → List Char → List Char
  | pending, [] => if pending ≥ 3 then repl else List.replicate pending '\n'
  | pending, c :: cs =>
    if c = '\n' then collapseRunsTo repl (pending + 1) cs
    else
      (if pending ≥ 3 then repl else List.replicate pending '\n') ++
        c :: collapseRunsTo repl 0 cs

/-- Python `str.split('\n')` on a character list. -/
def splitNl : List Char → List (List Char)
  | [] => [[]]
  | c :: cs =>
    if c = '\n' then [] :: splitNl cs
    else
      match splitNl cs with
      | l :: ls => (c :: l) :: ls
      | [] => [[c]]

/-- Python `'\n'.join` on line lists. -/
def joinNl : List (List Char) → List Char
  | [] => []
  | [l] => l
  | l :: ls => l ++ '\n' :: joinNl ls

/-- Python `line.lstrip()`. -/
def lstripWs (l : List Char) : List Char := l.dropWhile isPySpace

/-- Line whose stripped form starts with `#` (a comment, in
`convert_pre`'s grouping loop). -/
def isCommentLine (l : List Char) : Bool :=
  match lstripWs l with
  | '#' :: _ => true
  | _ => false

/-- `convert_pre`'s lookahead: is there a later non-empty, non-comment
line? -/
def hasCommandAfter (rest : List (List Char)) : Bool :=
  rest.any (fun l =>
    match lstripWs l with
    | [] => false
    | c :: _ => c ≠ '#')

/-- The comment-grouping loop of `convert_pre` (`url2md.py`, lines
112–142): insert a blank line before a comment line when an earlier
comment was seen, a command follows it, and the previously emitted line
is not already blank (`prev = none` models the empty `formatted_lines`). -/
def groupComments (seen : Bool) (prev : Option (List Char)) :
    List (List Char) → List (List Char)
  | [] => []
  | l :: rest =>
    if isCommentLine l then
      if seen && hasCommandAfter rest &&
          (match prev with | some p => p ≠ [] | none => false) then
        [] :: l :: groupComments true (some l) rest
      else l :: groupComments true (some l) rest
    else l :: groupComments seen (some l) rest

/-- Python `str.replace` (all occurrences, leftmost first; fuelled by the
input length, enough for the non-empty patterns the source uses). -/
def pyReplace (pat repl : List Char) : Nat → List Char → List Char
  | 0, cs => cs
  | _ + 1, [] => []
  | fuel + 1, c :: cs =>
    if startsWithCs (c :: cs) pat && pat ≠ [] then
      repl ++ pyReplace pat repl fuel ((c :: cs).drop pat.length)
    else c :: pyReplace pat repl fuel cs

def pyReplaceS (pat repl s : String) : String :=
  ⟨pyReplace pat.data repl.data s.data.length s.data⟩

/-- The bare language names `convert_pre` accepts as classes. -/
def languageWhitelist : List String :=
  ["bash", "shell", "sh", "python", "py", "javascript", "js", "typescript",
   "ts", "dockerfile", "docker", "yaml", "yml", "json", "xml", "html", "css",
   "sql", "java", "c", "cpp", "go", "rust", "ruby", "php"]

/-- First matching class: a `language-*` class (with every `language-`
occurrence removed, as `str.replace` does) or a whitelisted bare name. -/
def langFromClassList : List String → Option String
  | [] => none
  | cl :: rest =>
    if cl.startsWith "language-" then some (pyReplaceS "language-" "" cl)
    else if cl ∈ languageWhitelist then some cl
    else langFromClassList rest

/-- Language detection of `convert_pre`: the `<pre>` classes first; when
they yield nothing (or the falsy empty string), the nested `<code>` tag's
classes. -/
def detectLanguage (preClasses : List String) (codeClasses : Option (List String)) :
    String :=
  let l1 := (langFromClassList preClasses).getD ""
  if l1 ≠ "" then l1
  else
    match codeClasses with
    | some cls => (langFromClassList cls).getD ""
    | none => ""

/-- A `<pre>` element as `convert_pre` consumes it: the classes on the
`<pre>` tag, the classes of the first nested `<code>` tag when present,
and the text content markdownify passes in. -/
structure PreEl where
  preClasses : List String
  codeClasses : Option (List String)
  text : String
  deriving Repr, DecidableEq

/-- `CustomMarkdownify.convert_pre` (`url2md.py`, lines 46–148): detect a
language, collapse runs of three-plus newlines to one, strip the whole
block, insert blank lines before grouping comments, and emit the fenced
block. -/
def convert_pre (el : PreEl) : String :=
  let language := detectLanguage el.preClasses el.codeClasses
  let code0 := pyStrip (collapseRunsTo ['\n'] 0 el.text.data)
  let code :=
    if code0 ≠ [] then joinNl (groupComments false none (splitNl code0)) else code0
  if code ≠ [] then
    ⟨"```".data ++ language.data ++ '\n' :: code ++ "\n```\n\n".data⟩
  else
    ⟨"```".data ++ language.data ++ "\n```\n\n".data⟩

end Url2md

namespace Url2md

theorem splitNl_ne_nil (cs : List Char) : splitNl cs ≠ [] := by
  cases cs with
  | nil => simp [splitNl]
  | cons c cs =>
    unfold splitNl
    by_cases hc : c = '\n'
    · simp [hc]
    · rw [if_neg hc]
      split <;> simp

theorem joinNl_splitNl (cs : List Char) : joinNl (splitNl cs) = cs := by
  induction cs with
  | nil => rfl
  | cons c cs ih =>
    unfold splitNl
    by_cases hc : c = '\n'
    · rw [if_pos hc, hc]
      cases hs : splitNl cs with
      | nil => exact absurd hs (splitNl_ne_nil cs)
      | cons l ls =>
        show '\n' :: joinNl (l :: ls) = '\n' :: cs
        rw [← hs, ih]
    · rw [if_neg hc]
      cases hs : splitNl cs with
      | nil => exact absurd hs (splitNl_ne_nil cs)
      | cons l ls =>
        cases ls with
        | nil =>
          show c :: l = c :: cs
          have : joinNl (splitNl cs) = cs := ih
          rw [hs] at this
          exact congrArg (c :: ·) this
        | cons l2 ls2 =>
          show (c :: l) ++ '\n' :: joinNl (l2 :: ls2) = c :: cs
          have : joinNl (splitNl cs) = cs := ih
          rw [hs] at this
          show c :: (l ++ '\n' :: joinNl (l2 :: ls2)) = c :: cs
          exact congrArg (c :: ·) this

theorem groupComments_id : ∀ (ls : List (List Char)) (seen : Bool)
    (prev : Option (List Char)),
    (∀ l ∈ ls, isCommentLine l = false) → groupComments seen prev ls = ls := by
  intro ls
  induction ls with
  | nil => intro seen prev _; rfl
  | cons l rest ih =>
    intro seen prev h
    unfold groupComments
    rw [if_neg (by simp [h l (List.mem_cons_self l rest)])]
    rw [ih seen (some l) (fun x hx => h x (List.mem_cons_of_mem l hx))]

theorem collapseRunsTo_id (repl : List Char) : ∀ (cs : List Char) (pending : Nat),
    ¬ (['\n', '\n', '\n'] <:+: (List.replicate pending '\n' ++ cs)) →
    collapseRunsTo repl pending cs = List.replicate pending '\n' ++ cs := by
  intro cs
  induction cs with
  | nil =>
    intro pending h
    unfold collapseRunsTo
    rw [if_neg ?hple]
    · simp
    case hple =>
      intro hge
      apply h
      apply List.IsPrefix.isInfix
      refine ⟨List.replicate (pending - 3) '\n' ++ [], ?_⟩
      rw [← List.append_assoc]
      have : (['\n', '\n', '\n'] : List Char) = List.replicate 3 '\n' := rfl
      rw [this, ← List.replicate_add]
      congr 1
      · congr 1
        omega
  | cons c cs ih =>
    intro pending h
    unfold collapseRunsTo
    by_cases hc : c = '\n'
    · rw [if_pos hc]
      subst hc
      have heq : List.replicate pending '\n' ++ '\n' :: cs
          = List.replicate (pending + 1) '\n' ++ cs := by
        rw [List.replicate_succ', List.append_assoc, List.singleton_append]
      rw [heq] at h ⊢
      exact ih (pending + 1) h
    · rw [if_neg hc]
      have hple : ¬ pending ≥ 3 := by
        intro hge
        apply h
        apply List.IsPrefix.isInfix
        refine ⟨List.replicate (pending - 3) '\n' ++ c :: cs, ?_⟩
        rw [← List.append_assoc]
        have h3 : (['\n', '\n', '\n'] : List Char) = List.replicate 3 '\n' := rfl
        rw [h3, ← List.replicate_add]
        congr 2
        omega
      rw [if_neg hple]
      have hcs : ¬ (['\n', '\n', '\n'] <:+: cs) := by
        intro hin
        exact h (hin.trans ⟨List.replicate pending '\n' ++ [c], [], by simp⟩)
      have := ih 0 (by simpa using hcs)
      rw [this]
      simp

end Url2md

namespace Url2md

/-- C6 counterexample: the block `" a\n\n\nb "` contains no run of three
or more blank lines and no comment line, so under the claim's "exactly
two transformations" its body would be emitted verbatim; `convert_pre`
instead collapses the two blank lines (three newlines) to none and strips
the surrounding whitespace. -/
theorem C6_convert_pre_counterexample :
    convert_pre ⟨[], none, " a\n\n\nb "⟩ = "```\na\nb\n```\n\n"
    ∧ convert_pre ⟨[], none, " a\n\n\nb "⟩ ≠ "```\n a\n\n\nb \n```\n\n" := by
  constructor
  · decide
  · decide

/-- C6 (amended): `convert_pre` emits a fenced block tagged with the
detected language (empty when none is found) whose body differs from the
source text by exactly three transformations: runs of three or more
newlines collapse to a single newline, the whole block is stripped of
leading and trailing whitespace, and a blank line is inserted before a
comment line that begins a new command grouping.  Stated as exact
preservation when none of the three applies: no triple-newline run, no
leading/trailing whitespace, and no comment line. -/
theorem C6_convert_pre_invariance (pcs : List String) (ccs : Option (List String))
    (t : String)
    (h1 : ¬ (['\n', '\n', '\n'] <:+: t.data))
    (h2 : pyStrip t.data = t.data)
    (h3 : ∀ l ∈ splitNl t.data, isCommentLine l = false)
    (h4 : t ≠ "") :
    convert_pre ⟨pcs, ccs, t⟩ =
      "```" ++ detectLanguage pcs ccs ++ "\n" ++ t ++ "\n```\n\n" := by
  have hdata : t.data ≠ [] := by
    intro hd
    apply h4
    cases t with
    | mk d =>
      have hd' : d = [] := by simpa using hd
      rw [hd']
  have hc0 : pyStrip (collapseRunsTo ['\n'] 0 t.data) = t.data := by
    have hcol := collapseRunsTo_id ['\n'] t.data 0 (by simpa using h1)
    simp at hcol
    rw [hcol, h2]
  unfold convert_pre
  simp only [hc0]
  rw [groupComments_id (splitNl t.data) false none h3, joinNl_splitNl]
  rw [if_pos hdata, if_pos hdata]
  apply String.ext
  simp only [String.data_append]
  cases t with
  | mk d =>
    show ['`', '`', '`'] ++ (detectLanguage pcs ccs).data ++ '\n' :: d ++
        ['\n', '`', '`', '`', '\n', '\n'] = _
    simp

/-- Witness for `C6_convert_pre_invariance`: a YAML-ish block with
indentation and a single blank line passes through byte-identical. -/
theorem C6_convert_pre_witness :
    convert_pre ⟨["language-yaml"], none, "key:\n  nested: 1\n\n  other: 2"⟩ =
      "```" ++ detectLanguage ["language-yaml"] none ++ "\n" ++
        "key:\n  nested: 1\n\n  other: 2" ++ "\n```\n\n" :=
  C6_convert_pre_invariance ["language-yaml"] none "key:\n  nested: 1\n\n  other: 2"
    (by decide) (by decide) (by decide) (by decide)

end Url2md

namespace Url2md

/-! Fenced-code-block extraction shared by `fix_broken_words` and
`clean_markdown_output`: the non-greedy regex ```` ```[\s\S]*?``` ````
matches from each opening fence to the earliest closing fence.  Python
names placeholders with `uuid4` hex strings; the embedding numbers them
deterministically (`CODEBLOCK_0`, `CODEBLOCK_1`, …), which is faithful
for texts that do not themselves contain such tokens. -/

def fenceMark : List Char := ['`', '`', '`']

def findCloseFence : Nat → List Char → Option (List Char × List Char)
  | 0, _ => none
  | fuel + 1, cs =>
    if startsWithCs cs fenceMark then some ([], cs.drop 3)
    else
      match cs with
      | [] => none
      | c :: cs' =>
        match findCloseFence fuel cs' with
        | some (b, a) => some (c :: b, a)
        | none => none

def findCodeBlock : Nat → List Char → Option (List Char × List Char × List Char)
  | 0, _ => none
  | fuel + 1, cs =>
    if startsWithCs cs fenceMark &&
        (findCloseFence (cs.length + 1) (cs.drop 3)).isSome then
      match findCloseFence (cs.length + 1) (cs.drop 3) with
      | some (mid, after) => some ([], fenceMark ++ mid ++ fenceMark, after)
      | none => none
    else
      match cs with
      | [] => none
      | c :: cs' =>
        match findCodeBlock fuel cs' with
        | some (b, blk, a) => some (c :: b, blk, a)
        | none => none

def placeholderFor (k : Nat) : List Char :=
  "CODEBLOCK_".data ++ Nat.toDigits 10 k

def extractBlocksGo (k : Nat) : Nat → List Char → List Char × List (List Char)
  | 0, cs => (cs, [])
  | fuel + 1, cs =>
    match findCodeBlock (cs.length + 1) cs with
    | none => (cs, [])
    | some (before, blk, after) =>
      let r := extractBlocksGo (k + 1) fuel after
      (before ++ placeholderFor k ++ r.1, blk :: r.2)

def extractBlocks (cs : List Char) : List Char × List (List Char) :=
  extractBlocksGo 0 (cs.length + 1) cs

def restoreBlocksGo (k : Nat) : List (List Char) → List Char → List Char
  | [], cs => cs
  | blk :: rest, cs =>
    restoreBlocksGo (k + 1) rest (pyReplace (placeholderFor k) blk (cs.length + 1) cs)

/-! Scanners for the two broken-word patterns of `fix_broken_words`:
pattern 1 joins a letter run, a newline and a lowercase run; pattern 2
deletes a newline between two letters (lookahead, case-insensitive). -/

inductive FbwMode where
  | scan
  | run
  | nlPending
  | lower

/-- Pattern-1 scanner state machine: `scan` outside any letter run, `run`
inside a group-1 candidate run, `nlPending` right after a newline that
followed a letter run (the newline is not yet emitted), `lower` inside a
matched group-2 lowercase run. -/
def fbw1go : FbwMode → List Char → List Char
  | .scan, [] => []
  | .run, [] => []
  | .lower, [] => []
  | .nlPending, [] => ['\n']
  | .scan, c :: cs =>
    if isFrLetter c then c :: fbw1go .run cs else c :: fbw1go .scan cs
  | .run, c :: cs =>
    if isFrLetter c then c :: fbw1go .run cs
    else if c = '\n' then fbw1go .nlPending cs
    else c :: fbw1go .scan cs
  | .nlPending, d :: cs' =>
    if isFrLower d then d :: fbw1go .lower cs'
    else if isFrLetter d then '\n' :: d :: fbw1go .run cs'
    else if d = '\n' then '\n' :: '\n' :: fbw1go .scan cs'
    else '\n' :: d :: fbw1go .scan cs'
  | .lower, c :: cs =>
    if isFrLower c then c :: fbw1go .lower cs
    else if isFrLetter c then c :: fbw1go .run cs
    else c :: fbw1go .scan cs

def fbw2 : List Char → List Char
  | a :: '\n' :: b :: cs =>
    if isFrLetter a && isFrLetter b then a :: fbw2 (b :: cs)
    else a :: fbw2 ('\n' :: b :: cs)
  | c :: cs => c :: fbw2 cs
  | [] => []

/-- `fix_broken_words(markdown_text)` (`url2md.py`, lines 520–579). -/
def fix_broken_words (s : String) : String :=
  let eb := extractBlocks s.data
  ⟨restoreBlocksGo 0 eb.2 (fbw2 (fbw1go .scan eb.1))⟩

/-! Generic scanner for the `^<content>\s*$` / `^\s+$` multiline
substitutions: at each line start, match the content, then Python's
greedy-with-backtracking trailing `\s*`/`\s+` up to a `$` position
(before a newline or at the end); the match is deleted and scanning
resumes at its end. -/

def atLineEnd (cs : List Char) (i : Nat) : Bool :=
  match cs.drop i with
  | [] => true
  | '\n' :: _ => true
  | _ => false

def wsBacktrack (cs : List Char) (minWs : Nat) : Nat → Option Nat
  | 0 => if minWs = 0 && atLineEnd cs 0 then some 0 else none
  | r + 1 => if atLineEnd cs (r + 1) then some (r + 1) else wsBacktrack cs minWs r

def subLines (m : List Char → Option Nat) (minWs : Nat) : Nat → List Char → List Char
  | 0, cs => cs
  | fuel + 1, cs =>
    match
      (match m cs with
       | some k =>
         match wsBacktrack (cs.drop k) minWs
             ((cs.drop k).takeWhile isPySpace).length with
         | some r => some (k + r)
         | none => none
       | none => none)
    with
    | some n =>
      (match cs.drop n with
       | '\n' :: rest2 => '\n' :: subLines m minWs fuel rest2
       | after => after)
    | none =>
      cs.takeWhile (· ≠ '\n') ++
        (match cs.dropWhile (· ≠ '\n') with
         | '\n' :: r2 => '\n' :: subLines m minWs fuel r2
         | rest => rest)

/-- Case-insensitive literal prefix test (`re.IGNORECASE` literals). -/
def ciStarts : List Char → List Char → Bool
  | _, [] => true
  | [], _ :: _ => false
  | c :: cs, l :: ls => pyLowerChar c = l && ciStarts cs ls

end Url2md

namespace Url2md

/-! Content matchers for the anchored full-line patterns of
`remove_unwanted_links` and `clean_markdown_output` (the trailing `\s*$`
is handled by `subLines`). -/

/-- Class `[eéÃ©]+` under `re.IGNORECASE`. -/
def isSectionEClass (c : Char) : Bool :=
  c = 'e' || c = 'E' || c = 'é' || c = 'É' || c = 'Ã' || c = 'ã' || c = '©'

/-- Class `[eêÃª]+` under `re.IGNORECASE` (the `Fenêtre` pattern). -/
def isFenEClass (c : Char) : Bool :=
  c = 'e' || c = 'E' || c = 'ê' || c = 'Ê' || c = 'Ã' || c = 'ã' || c = 'ª'

/-- Run of `[eéÃ©]+` followed by the literal `e`: the class contains `e`,
so the literal must be matched by backtracking one step into the run —
possible exactly when the run has an `e`/`E` past its first character. -/
def eClassThenE (cls : Char → Bool) (cs : List Char) : Option Nat :=
  let run := cs.takeWhile cls
  if run.length ≥ 2 && (run.drop 1).any (fun c => c = 'e' || c = 'E') then
    some run.length
  else none

/-- `\]\([^)]+\)` — the closing link part shared by three patterns. -/
def linkTarget (cs : List Char) : Option Nat :=
  match cs with
  | ']' :: '(' :: r =>
    let run := r.takeWhile (· ≠ ')')
    if run.length ≥ 1 && (r.drop run.length).head? = some ')' then
      some (2 + run.length + 1)
    else none
  | _ => none

/-- `\[Section intitul[eéÃ©]+e[^\]]+\]\([^)]+\)` (case-insensitive). -/
def matchSectionLink (cs : List Char) : Option Nat :=
  match cs with
  | '[' :: r =>
    if ciStarts r "section intitul".data then
      let r1 := r.drop 15
      match eClassThenE isSectionEClass r1 with
      | some e =>
        let r2 := r1.drop e
        let mid := r2.takeWhile (· ≠ ']')
        if mid.length ≥ 1 then
          match linkTarget (r2.drop mid.length) with
          | some t => some (1 + 15 + e + mid.length + t)
          | none => none
        else none
      | none => none
    else none
  | _ => none

/-- `Section intitul[eéÃ©]+e\s+[«"][^»"]+[»"]` (case-insensitive). -/
def matchSectionText (cs : List Char) : Option Nat :=
  if ciStarts cs "section intitul".data then
    let r1 := cs.drop 15
    match eClassThenE isSectionEClass r1 with
    | some e =>
      let r2 := r1.drop e
      let w := r2.takeWhile isPySpace
      if w.length ≥ 1 then
        match r2.drop w.length with
        | q :: r3 =>
          if q = '«' || q = '"' then
            let mid := r3.takeWhile (fun c => !(c = '»' || c = '"'))
            if mid.length ≥ 1 then
              match (r3.drop mid.length).head? with
              | some q2 =>
                if q2 = '»' || q2 = '"' then
                  some (15 + e + w.length + 1 + mid.length + 1)
                else none
              | none => none
            else none
          else none
        | [] => none
      else none
    | none => none
  else none

/-- `\[Fen[eêÃª]tre de terminal\]\([^)]+\)` (case-insensitive). -/
def matchTerminalLink (cs : List Char) : Option Nat :=
  match cs with
  | '[' :: r =>
    if ciStarts r "fen".data then
      let r1 := r.drop 3
      let run := r1.takeWhile isFenEClass
      if run.length ≥ 1 then
        let r2 := r1.drop run.length
        if ciStarts r2 "tre de terminal".data then
          match linkTarget (r2.drop 15) with
          | some t => some (1 + 3 + run.length + 15 + t)
          | none => none
        else none
      else none
    else none
  | _ => none

/-- `\[Aller au contenu\]\([^)]+\)` (case-insensitive). -/
def matchContentLink (cs : List Char) : Option Nat :=
  match cs with
  | '[' :: r =>
    if ciStarts r "aller au contenu".data then
      match linkTarget (r.drop 16) with
      | some t => some (1 + 16 + t)
      | none => none
    else none
  | _ => none

/-- `remove_unwanted_links(markdown_text)` (`url2md.py`, lines 670–734);
the metadata-line pattern and blank-line collapse there are commented out
in the source and therefore absent here. -/
def remove_unwanted_links (s : String) : String :=
  let t := s.data
  let t := subLines matchSectionLink 0 (t.length + 1) t
  let t := subLines matchSectionText 0 (t.length + 1) t
  let t := subLines matchTerminalLink 0 (t.length + 1) t
  let t := subLines matchContentLink 0 (t.length + 1) t
  ⟨t⟩

end Url2md

namespace Url2md

/-! `remove_initial_metadata` (`url2md.py`, lines 737–816). -/

/-- Python `str.split()` (whitespace runs, no empty words); `cur` holds
the reversed current word. -/
def pySplitWsGo (cur : List Char) : List Char → List (List Char)
  | [] => if cur = [] then [] else [cur.reverse]
  | c :: cs =>
    if isPySpace c then
      if cur = [] then pySplitWsGo [] cs else cur.reverse :: pySplitWsGo [] cs
    else pySplitWsGo (c :: cur) cs

def pySplitWs (l : List Char) : List (List Char) := pySplitWsGo [] l

/-- `^[a-zA-ZéèêëàâäôöûüçîïÉÈÊËÀÂÄÔÖÛÜÇÎÏ]+$` — letters only. -/
def isSimpleWord (w : List Char) : Bool :=
  w ≠ [] && w.all isFrLetter

def badgeWords : List (List Char) :=
  ["high".data, "medium".data, "low".data, "easy".data, "hard".data,
   "beginner".data, "intermediate".data, "advanced".data]

def mdChars : List Char := ['*', '[', ']', '(', ')', '#', '`']

def rimGo (nonEmpty : Nat) (resultEmpty : Bool) : List (List Char) → List (List Char)
  | [] => []
  | line :: rest =>
    let stripped := pyStrip line
    let ne' := if stripped ≠ [] then nonEmpty + 1 else nonEmpty
    if ne' > 10 then line :: rimGo ne' false rest
    else if stripped = [] && resultEmpty then rimGo ne' resultEmpty rest
    else if (match line with | c :: _ => c = ' ' | [] => false) && stripped ≠ [] then
      rimGo ne' resultEmpty rest
    else if pyLower stripped ∈ badgeWords then rimGo ne' resultEmpty rest
    else if (pySplitWs stripped).length ≥ 3 &&
        (pySplitWs stripped).all isSimpleWord &&
        !(stripped.any (fun c => mdChars.contains c)) then
      rimGo ne' resultEmpty rest
    else line :: rimGo ne' false rest

def remove_initial_metadata (s : String) : String :=
  ⟨joinNl (rimGo 0 true (splitNl s.data))⟩

/-! `remove_unwanted_sections` (`url2md.py`, lines 907–992). -/

/-- `re.match(r'^(#{1,6})\s+(.+)$', line)` on a single line: the heading
level and the raw title (greedy `\s+` with one step of backtracking when
the remainder is all whitespace). -/
def matchHeader (l : List Char) : Option (Nat × List Char) :=
  let n := (l.takeWhile (· = '#')).length
  if 1 ≤ n && n ≤ 6 then
    let t := l.drop n
    let w := (t.takeWhile isPySpace).length
    if w = 0 then none
    else if t.length > w then some (n, t.drop w)
    else if w ≥ 2 then some (n, t.drop (w - 1))
    else none
  else none

def unwantedTitles : List (List Char) :=
  ["ce que vous allez apprendre".data,
   "testez vos connaissances".data,
   "Contrôle des connaissances".data,
   "ce site vous est utile".data,
   "ce site vous est utile ?".data]

def rusGo (skip : Bool) (sectionLevel : Nat) : List (List Char) → List (List Char)
  | [] => []
  | line :: rest =>
    match matchHeader line with
    | some (lvl, rawTitle) =>
      let title := pyStrip rawTitle
      let normalized := pyStrip (rstripChar '?' (pyStrip (pyLower title)))
      if lvl = 2 && normalized ∈ unwantedTitles then rusGo true 2 rest
      else if skip then
        if lvl ≤ sectionLevel then line :: rusGo false 0 rest
        else rusGo skip sectionLevel rest
      else line :: rusGo skip sectionLevel rest
    | none =>
      if skip then rusGo skip sectionLevel rest
      else line :: rusGo skip sectionLevel rest

def remove_unwanted_sections (s : String) : String :=
  ⟨joinNl (rusGo false 0 (splitNl s.data))⟩

/-! `deduplicate_nested_callouts` (`url2md.py`, lines 819–904). -/

/-- `re.match(r'^(>+)\s*\[!(\w+)\](.*)$', line)`: the quote level of a
callout marker line. -/
def matchMarker (l : List Char) : Option Nat :=
  let k := (l.takeWhile (· = '>')).length
  if k = 0 then none
  else
    match (l.drop k).dropWhile isPySpace with
    | '[' :: '!' :: r2 =>
      let w := r2.takeWhile isWordChar
      if w.length ≥ 1 && (r2.drop w.length).head? = some ']' then some k else none
    | _ => none

/-- `re.match(r'^(>)\s+(>+)\s*(.*)$', line)`: group 3 of a nested
blockquote line. -/
def matchReduction (l : List Char) : Option (List Char) :=
  match l with
  | '>' :: r =>
    let w := (r.takeWhile isPySpace).length
    if w = 0 then none
    else
      let r2 := r.drop w
      let g := (r2.takeWhile (· = '>')).length
      if g = 0 then none
      else some ((r2.drop g).dropWhile isPySpace)
  | _ => none

/-- The bounded lookahead (`j < i + 10`, so at most nine lines): the
1-based offset of the first deeper-quoted marker, stopping at a
same-or-shallower marker or a non-blockquote line. -/
def lookNested (qlvl : Nat) : Nat → List (List Char) → Option Nat
  | 0, _ => none
  | _, [] => none
  | steps + 1, l :: ls =>
    match matchMarker l with
    | some lvl => if lvl > qlvl then some 1 else none
    | none =>
      if !startsWithCs l ['>'] then none
      else
        match lookNested qlvl steps ls with
        | some o => some (o + 1)
        | none => none

def dedupGo : Nat → List (List Char) → List (List Char)
  | 0, ls => ls
  | _ + 1, [] => []
  | fuel + 1, line :: rest =>
    match matchMarker line with
    | some qlvl =>
      match lookNested qlvl 9 rest with
      | some o =>
        ((rest.take (o - 1)).filter
          (fun l => pyStrip l ≠ [] && !startsWithCs l ['>'])) ++
          dedupGo fuel (rest.drop (o - 1))
      | none => line :: dedupGo fuel rest
    | none =>
      match matchReduction line with
      | some g3 => ('>' :: ' ' :: g3) :: dedupGo fuel rest
      | none => line :: dedupGo fuel rest

def deduplicate_nested_callouts (s : String) : String :=
  ⟨joinNl (dedupGo (s.data.length + 1) (splitNl s.data))⟩

end Url2md

namespace Url2md

/-! `clean_markdown_output` (`url2md.py`, lines 582–646). -/

def glzTypes : List (List Char) :=
  ["NOTE".data, "TIP".data, "WARNING".data, "DANGER".data, "IMPORTANT".data,
   "EXAMPLE".data, "QUESTION".data, "QUOTE".data]

def glissezLit : List Char := "Glissez pour voir".data

/-- The alternation `(NOTE|TIP|…)\]`: the first listed type that matches
and is followed by `]`. -/
def glzType : List (List Char) → List Char → Option Nat
  | [], _ => none
  | t :: ts, cs =>
    if startsWithCs cs t && (cs.drop t.length).head? = some ']' then some t.length
    else glzType ts cs

/-- Tail `\s*Glissez pour voir\s*\n?` after the third `>`: greedy
whitespace, the literal, then the whole trailing whitespace run (the
optional newline adds nothing beyond it). -/
def matchGlzTail (cs : List Char) : Option Nat :=
  let w := (cs.takeWhile isPySpace).length
  if startsWithCs (cs.drop w) glissezLit then
    let after := cs.drop (w + 17)
    some (w + 17 + (after.takeWhile isPySpace).length)
  else none

/-- One candidate of the second `\s*\n>` junction: a newline at offset
`r` of the whitespace run, a `>` after it, then the tail. -/
def glzBStep (cs : List Char) (r : Nat) : Option Nat :=
  if (cs.drop r).head? = some '\n' && (cs.drop (r + 1)).head? = some '>' then
    (matchGlzTail (cs.drop (r + 2))).map (fun n => r + 2 + n)
  else none

/-- Backtracking search for `\s*\n>` followed by the tail: try the
newline candidates inside the whitespace run from the greediest down. -/
def matchGlzB (cs : List Char) : Nat → Option Nat
  | 0 => glzBStep cs 0
  | r + 1 =>
    match glzBStep cs (r + 1) with
    | some n => some n
    | none => matchGlzB cs r

/-- One candidate of the first `\s*\n>` junction, continuing with the
second junction and the tail. -/
def glzAStep (cs : List Char) (r : Nat) : Option Nat :=
  if (cs.drop r).head? = some '\n' && (cs.drop (r + 1)).head? = some '>' then
    (matchGlzB (cs.drop (r + 2))
        (((cs.drop (r + 2)).takeWhile isPySpace).length)).map (fun n => r + 2 + n)
  else none

/-- Backtracking search for the first `\s*\n>` junction. -/
def matchGlzA (cs : List Char) : Nat → Option Nat
  | 0 => glzAStep cs 0
  | r + 1 =>
    match glzAStep cs (r + 1) with
    | some n => some n
    | none => matchGlzA cs r

/-- The unanchored pattern
`>\s*\[!(TYPE)\]\s*\n>\s*\n>\s*Glissez pour voir\s*\n?`. -/
def matchGlz (cs : List Char) : Option Nat :=
  match cs with
  | '>' :: rest =>
    let w0 := (rest.takeWhile isPySpace).length
    match rest.drop w0 with
    | '[' :: '!' :: r1 =>
      match glzType glzTypes r1 with
      | some tlen =>
        let r2 := r1.drop (tlen + 1)
        match matchGlzA r2 ((r2.takeWhile isPySpace).length) with
        | some n => some (1 + w0 + 2 + tlen + 1 + n)
        | none => none
      | none => none
    | _ => none
  | _ => none

/-- Scanner applying `matchGlz` at every position (the pattern carries no
anchors). -/
def subGlzGo : Nat → List Char → List Char
  | 0, cs => cs
  | _ + 1, [] => []
  | fuel + 1, c :: cs =>
    match matchGlz (c :: cs) with
    | some n => subGlzGo fuel ((c :: cs).drop n)
    | none => c :: subGlzGo fuel cs

/-- `^Glissez pour voir\s*$` (case-sensitive), content part. -/
def matchGlissezLine (cs : List Char) : Option Nat :=
  if startsWithCs cs glissezLit then some 17 else none

/-- `re.sub(r' +$', '', ·, MULTILINE)`: trailing spaces (spaces only) of
each line. -/
def stripTrailingSpacesLine (l : List Char) : List Char :=
  (l.reverse.dropWhile (· = ' ')).reverse

def clean_markdown_output (s : String) : String :=
  let eb := extractBlocks s.data
  let t := eb.1
  let t := subGlzGo (t.length + 1) t
  let t := subLines matchGlissezLine 0 (t.length + 1) t
  let t := subLines (fun _ => some 0) 1 (t.length + 1) t
  let t := joinNl ((splitNl t).map stripTrailingSpacesLine)
  let t := collapseRunsTo ['\n', '\n'] 0 t
  ⟨restoreBlocksGo 0 eb.2 t⟩

/-! `remove_first_h1` (`url2md.py`, lines 649–667). -/

/-- Backtracking for `\s+` in `^#\s+.+$`: the largest `w ≥ 1` within the
whitespace run such that a non-newline character follows (so `.+` can
match at least once). -/
def h1Backtrack (t : List Char) : Nat → Option Nat
  | 0 => none
  | w + 1 =>
    if (match t.drop (w + 1) with | c :: _ => c != '\n' | [] => false) then
      some (w + 1)
    else h1Backtrack t w

/-- Leftmost match of `^#\s+.+$` at a line start: `#`, greedy whitespace
(which may cross the line break), then the non-newline run. -/
def tryMatchH1 (cs : List Char) : Option Nat :=
  match cs with
  | '#' :: t =>
    match h1Backtrack t ((t.takeWhile isPySpace).length) with
    | some w => some (1 + w + ((t.drop w).takeWhile (· ≠ '\n')).length)
    | none => none
  | _ => none

def removeFirstH1Go : Nat → List Char → List Char
  | 0, cs => cs
  | fuel + 1, cs =>
    match tryMatchH1 cs with
    | some n => cs.drop n
    | none =>
      cs.takeWhile (· ≠ '\n') ++
        (match cs.dropWhile (· ≠ '\n') with
         | '\n' :: r2 => '\n' :: removeFirstH1Go fuel r2
         | rest => rest)

def remove_first_h1 (s : String) : String :=
  ⟨lstripChar '\n' (removeFirstH1Go (s.data.length + 1) s.data)⟩

/-- The post-processing chain of `scrape_to_markdown` (`url2md.py`, lines
1588–1597), in source order; `format_callouts` is commented out there and
therefore absent. -/
def postProcess (s : String) : String :=
  fix_broken_words (remove_first_h1 (clean_markdown_output
    (deduplicate_nested_callouts (remove_unwanted_sections
      (remove_initial_metadata (remove_unwanted_links (fix_broken_words s)))))))

end Url2md

namespace Url2md

/-- C2 counterexample: only `fix_broken_words` and
`clean_markdown_output` protect fenced blocks; `remove_first_h1` operates
on the raw text, so the `# install` comment inside the document's first
fenced block — being the first `^#\s+.+$` match — is deleted, and the
input's fenced block (with its comment line) no longer occurs in the
pipeline output. -/
theorem C2_code_block_counterexample :
    postProcess "```bash\n# install\nls\n```" = "```bash\n\nls\n```"
    ∧ ¬ ("```bash\n# install\nls\n```".data <:+:
          (postProcess "```bash\n# install\nls\n```").data) := by
  constructor
  · decide
  · decide

/-- C2 (amended): fenced code blocks are byte-preserved by the pipeline
when their lines trigger none of the unprotected passes' patterns; in
particular this block with irregular indentation and an embedded blank
line — placed after ten non-blank lines — passes through the whole
pipeline byte-identically. -/
theorem C2_code_block_protected :
    postProcess
        "0\n1\n2\n3\n4\n5\n6\n7\n8\n9\n\n```python\ndef f(x):\n      return (x +\n\n          1)\n```"
      = "0\n1\n2\n3\n4\n5\n6\n7\n8\n9\n\n```python\ndef f(x):\n      return (x +\n\n          1)\n```"
    ∧ ("```python\ndef f(x):\n      return (x +\n\n          1)\n```".data <:+:
        (postProcess
          "0\n1\n2\n3\n4\n5\n6\n7\n8\n9\n\n```python\ndef f(x):\n      return (x +\n\n          1)\n```").data) := by
  constructor
  · decide
  · decide

/-- C4 counterexample: the pipeline is not idempotent on its own output —
`remove_first_h1` deletes one more level-1 heading on every application,
so a document with two `# ` headings loses one per run. -/
theorem C4_not_idempotent :
    postProcess "# A\n\n# B\n\nc." = "# B\n\nc."
    ∧ postProcess (postProcess "# A\n\n# B\n\nc.") = "c."
    ∧ ("c." : String) ≠ "# B\n\nc." := by
  refine ⟨by decide, by decide, by decide⟩

/-- C4 (amended): the pipeline is idempotent exactly on its fixed points:
a text the pipeline leaves unchanged is unchanged by a second
application; the output of one application need not be such a text. -/
theorem C4_idempotent_on_fixed_points (t : String) (h : postProcess t = t) :
    postProcess (postProcess t) = postProcess t := by
  rw [h]
  exact h

/-- Witness for `C4_idempotent_on_fixed_points`: a clean document with a
heading, prose and a fenced block is a pipeline fixed point. -/
theorem C4_idempotent_witness :
    postProcess "## Guide\n\nBody text here.\n\n```\nx =  1\n```"
      = "## Guide\n\nBody text here.\n\n```\nx =  1\n```"
    ∧ postProcess (postProcess "## Guide\n\nBody text here.\n\n```\nx =  1\n```")
      = postProcess "## Guide\n\nBody text here.\n\n```\nx =  1\n```" :=
  ⟨by decide,
   C4_idempotent_on_fixed_points "## Guide\n\nBody text here.\n\n```\nx =  1\n```"
     (by decide)⟩

/-- C5: on the docstring's own example —

    > [!NOTE]
    >
    > > [!NOTE]
    > > Content

— `deduplicate_nested_callouts` leaves two `[!NOTE]` markers: the marker
regex `^(>+)\s*\[!` cannot see the space-separated `> > [!NOTE]` as a
nested marker (the `(>+)` group requires consecutive `>`), so the outer
wrapper is never collapsed; only the quote depth of the inner lines is
reduced.  The documented output has a single marker. -/
theorem C5_dedup_docstring_divergence :
    deduplicate_nested_callouts "> [!NOTE]\n>\n> > [!NOTE]\n> > Content"
      = "> [!NOTE]\n>\n> [!NOTE]\n> Content"
    ∧ ("> [!NOTE]\n>\n> [!NOTE]\n> Content" : String)
      ≠ "> [!NOTE]\n>\n> Content" := by
  refine ⟨by decide, by decide⟩

end Url2md

namespace Url2md

theorem dropWhile_head_not {p : Char → Bool} :
    ∀ (l : List Char) (c : Char) (r : List Char),
      l.dropWhile p = c :: r → p c = false := by
  intro l
  induction l with
  | nil => intro c r h; cases h
  | cons a as ih =>
    intro c r h
    rw [List.dropWhile_cons] at h
    by_cases hp : p a = true
    · rw [if_pos hp] at h
      exact ih c r h
    · rw [if_neg hp] at h
      cases h
      exact Bool.not_eq_true _ ▸ hp

theorem drop_takeWhile_len {p : Char → Bool} :
    ∀ l : List Char, l.drop (l.takeWhile p).length = l.dropWhile p := by
  intro l
  induction l with
  | nil => rfl
  | cons a as ih =>
    rw [List.takeWhile_cons, List.dropWhile_cons]
    by_cases hp : p a = true
    · rw [if_pos hp, if_pos hp]
      simpa using ih
    · rw [if_neg hp, if_neg hp]
      rfl

theorem takeWhile_append_stop {p : Char → Bool} (xs ys : List Char)
    (h : ∃ x ∈ xs, p x = false) :
    (xs ++ ys).takeWhile p = xs.takeWhile p := by
  induction xs with
  | nil => rcases h with ⟨x, hx, _⟩; cases hx
  | cons a as ih =>
    rw [List.cons_append, List.takeWhile_cons, List.takeWhile_cons]
    by_cases hp : p a = true
    · rw [if_pos hp, if_pos hp]
      rcases h with ⟨x, hx, hxp⟩
      rcases List.mem_cons.mp hx with rfl | hx'
      · rw [hp] at hxp; cases hxp
      · rw [ih ⟨x, hx', hxp⟩]
    · rw [if_neg hp, if_neg hp]

theorem takeWhile_lt_of_exists {p : Char → Bool} (xs : List Char)
    (h : ∃ x ∈ xs, p x = false) :
    (xs.takeWhile p).length < xs.length := by
  rcases Nat.lt_or_ge (xs.takeWhile p).length xs.length with hlt | hge
  · exact hlt
  · exfalso
    have hpre := List.takeWhile_prefix (l := xs) (p := p)
    have hlen := hpre.length_le
    have : (xs.takeWhile p).length = xs.length := le_antisymm hlen hge
    have heq : xs.takeWhile p = xs := hpre.eq_of_length this
    rcases h with ⟨x, hx, hxp⟩
    have := mem_takeWhile_pred (x := x) (heq ▸ hx)
    rw [this] at hxp
    cases hxp

/-- A level-1 heading line as the pattern `^#\s+.+$` sees it inside a
single line: `#`, then a whitespace character (the rest of the line
supplies the `.+`). -/
def isH1Line (l : List Char) : Bool :=
  match l with
  | '#' :: c :: _ => isPySpace c
  | _ => false

/-- Line-level effect of the `count=1` substitution: empty the first
heading line. -/
def replaceFirstH1 : List (List Char) → List (List Char)
  | [] => []
  | l :: ls => if isH1Line l then [] :: ls else l :: replaceFirstH1 ls

theorem lines_le_joinNl : ∀ ls : List (List Char), ls.length ≤ (joinNl ls).length + 1 := by
  intro ls
  induction ls with
  | nil => simp
  | cons l rest ih =>
    cases rest with
    | nil => simp [joinNl]
    | cons l2 rest2 =>
      show (l2 :: rest2).length + 1 ≤ (l ++ '\n' :: joinNl (l2 :: rest2)).length + 1
      simp only [List.length_append, List.length_cons] at ih ⊢
      omega

theorem lstrip_joinNl (ls : List (List Char)) (hnl : ∀ l ∈ ls, '\n' ∉ l) :
    lstripChar '\n' (joinNl ls) = joinNl (ls.dropWhile (· = [])) := by
  induction ls with
  | nil => rfl
  | cons l rest ih =>
    cases l with
    | nil =>
      rw [List.dropWhile_cons, if_pos (by simp)]
      cases rest with
      | nil => rfl
      | cons l2 rest2 =>
        show lstripChar '\n' ([] ++ '\n' :: joinNl (l2 :: rest2)) = _
        rw [List.nil_append]
        show lstripChar '\n' (joinNl (l2 :: rest2)) = _
        exact ih (fun x hx => hnl x (List.mem_cons_of_mem _ hx))
    | cons c l' =>
      have hc : c ≠ '\n' := by
        intro hc
        exact hnl (c :: l') (List.mem_cons_self _ _) (hc ▸ List.mem_cons_self c l')
      rw [List.dropWhile_cons, if_neg (by simp)]
      cases rest with
      | nil =>
        show lstripChar '\n' (c :: l') = joinNl [c :: l']
        unfold lstripChar
        rw [List.dropWhile_cons, if_neg (by simpa using hc)]
        rfl
      | cons l2 rest2 =>
        show lstripChar '\n' ((c :: l') ++ '\n' :: joinNl (l2 :: rest2)) = _
        unfold lstripChar
        rw [List.cons_append, List.dropWhile_cons, if_neg (by simpa using hc)]
        rfl

end Url2md

namespace Url2md

theorem drop_append_left_le {α} (xs ys : List α) (n : Nat) (h : n ≤ xs.length) :
    (xs ++ ys).drop n = xs.drop n ++ ys := by
  induction xs generalizing n with
  | nil =>
    have : n = 0 := Nat.le_zero.mp h
    subst this
    rfl
  | cons a as ih =>
    cases n with
    | zero => rfl
    | succ m =>
      show (as ++ ys).drop m = as.drop m ++ ys
      exact ih m (Nat.succ_le_succ_iff.mp h)

theorem removeFirstH1Go_succ (fuel : Nat) (cs : List Char) :
    removeFirstH1Go (fuel + 1) cs =
      match tryMatchH1 cs with
      | some n => cs.drop n
      | none =>
        cs.takeWhile (· ≠ '\n') ++
          (match cs.dropWhile (· ≠ '\n') with
           | '\n' :: r2 => '\n' :: removeFirstH1Go fuel r2
           | rest => rest) := rfl

theorem isH1Line_not_hash (a : Char) (t : List Char) (ha : a ≠ '#') :
    isH1Line (a :: t) = false := by
  unfold isH1Line
  split
  · next c r heq =>
    exact absurd (by injection heq) ha
  · rfl

theorem tryMatchH1_not_hash (a : Char) (cs : List Char) (ha : a ≠ '#') :
    tryMatchH1 (a :: cs) = none := by
  unfold tryMatchH1
  split
  · next t heq =>
    exact absurd (by injection heq) ha
  · rfl

theorem tryMatchH1_line (l sep : List Char)
    (hsep : sep = [] ∨ ∃ s', sep = '\n' :: s')
    (hnl : '\n' ∉ l)
    (hreg : l.head? = some '#' → ∃ c ∈ l.tail, isPySpace c = false) :
    tryMatchH1 (l ++ sep) = if isH1Line l then some l.length else none := by
  cases l with
  | nil =>
    rcases hsep with rfl | ⟨s', rfl⟩
    · rfl
    · rfl
  | cons a t =>
    by_cases ha : a = '#'
    · subst ha
      obtain ⟨d, hd, hdws⟩ := hreg rfl
      cases t with
      | nil => cases hd
      | cons c t' =>
        by_cases hc : isPySpace c = true
        · -- a genuine H1 line: the match consumes exactly the line
          have hmem : ∃ x ∈ c :: t', isPySpace x = false := ⟨d, hd, hdws⟩
          have hTtake : (((c :: t') ++ sep).takeWhile isPySpace) =
              (c :: t').takeWhile isPySpace := takeWhile_append_stop _ _ hmem
          have hWlt : ((c :: t').takeWhile isPySpace).length < (c :: t').length :=
            takeWhile_lt_of_exists _ hmem
          have hWpos : 1 ≤ ((c :: t').takeWhile isPySpace).length := by
            rw [List.takeWhile_cons, if_pos hc]
            simp
          obtain ⟨e, r', her⟩ : ∃ e r', (c :: t').drop
              ((c :: t').takeWhile isPySpace).length = e :: r' := by
            cases hh : (c :: t').drop ((c :: t').takeWhile isPySpace).length with
            | nil =>
              exfalso
              have := congrArg List.length hh
              rw [List.length_drop] at this
              simp only [List.length_nil, List.length_cons] at this
              simp only [List.length_cons] at hWlt
              omega
            | cons e r' => exact ⟨e, r', rfl⟩
          have hews : isPySpace e = false := by
            apply dropWhile_head_not (c :: t') e r'
            rw [← drop_takeWhile_len]
            exact her
          have hennl : (e != '\n') = true := by
            have he' : e ≠ '\n' := by
              intro h
              rw [h] at hews
              exact absurd hews (by decide)
            exact bne_iff_ne.mpr he'
          have hTdrop : ((c :: t') ++ sep).drop ((c :: t').takeWhile isPySpace).length =
              e :: (r' ++ sep) := by
            rw [drop_append_left_le _ _ _ (le_of_lt hWlt), her]
            rfl
          have hback : h1Backtrack ((c :: t') ++ sep)
              ((((c :: t') ++ sep).takeWhile isPySpace).length) =
              some (((c :: t').takeWhile isPySpace).length) := by
            rw [hTtake]
            obtain ⟨w0, hw0⟩ : ∃ w0, ((c :: t').takeWhile isPySpace).length = w0 + 1 :=
              ⟨((c :: t').takeWhile isPySpace).length - 1, by omega⟩
            rw [hw0]
            unfold h1Backtrack
            rw [← hw0, hTdrop]
            show (if (e != '\n') = true then _ else _) = _
            rw [if_pos hennl, hw0]
          have hall : ∀ x ∈ (c :: t').drop ((c :: t').takeWhile isPySpace).length,
              (decide (x ≠ '\n')) = true := by
            intro x hx
            have hx' : x ∈ ('#' :: c :: t') :=
              List.mem_cons_of_mem _ (List.mem_of_mem_drop hx)
            simp only [decide_eq_true_eq]
            exact fun h => hnl (h ▸ hx')
          have hmtake : (((c :: t') ++ sep).drop
                ((c :: t').takeWhile isPySpace).length).takeWhile (· ≠ '\n') =
              (c :: t').drop ((c :: t').takeWhile isPySpace).length := by
            rw [drop_append_left_le _ _ _ (le_of_lt hWlt)]
            rw [takeWhile_append_all _ _ _ hall]
            rcases hsep with rfl | ⟨s', rfl⟩
            · simp
            · have hsk : ('\n' :: s').takeWhile (· ≠ '\n') = [] := by
                rw [List.takeWhile_cons, if_neg (by simp)]
              rw [hsk, List.append_nil]
          show tryMatchH1 ('#' :: ((c :: t') ++ sep)) = _
          have hH1 : isH1Line ('#' :: c :: t') = true := by
            show isPySpace c = true
            exact hc
          rw [if_pos hH1]
          show (match h1Backtrack ((c :: t') ++ sep)
              ((((c :: t') ++ sep).takeWhile isPySpace).length) with
            | some w => some (1 + w +
                ((((c :: t') ++ sep).drop w).takeWhile (· ≠ '\n')).length)
            | none => none) = some ('#' :: c :: t').length
          rw [hback]
          show some (1 + ((c :: t').takeWhile isPySpace).length +
            ((((c :: t') ++ sep).drop
              ((c :: t').takeWhile isPySpace).length).takeWhile (· ≠ '\n')).length) = _
          rw [hmtake, List.length_drop]
          congr 1
          simp only [List.length_cons] at hWlt ⊢
          omega
        · -- whitespace missing right after the hash: no match here
          have hc' : isPySpace c = false := by
            cases hcc : isPySpace c with
            | false => rfl
            | true => exact absurd hcc hc
          have hH1 : isH1Line ('#' :: c :: t') = false := hc'
          rw [hH1, if_neg (by simp)]
          have htk : (((c :: t') ++ sep).takeWhile isPySpace) = [] := by
            rw [List.cons_append, List.takeWhile_cons, if_neg hc]
          show (match h1Backtrack ((c :: t') ++ sep)
              ((((c :: t') ++ sep).takeWhile isPySpace).length) with
            | some w => some (1 + w +
                ((((c :: t') ++ sep).drop w).takeWhile (· ≠ '\n')).length)
            | none => none) = none
          rw [htk]
          rfl
    · rw [isH1Line_not_hash a t ha]
      rw [List.cons_append]
      rw [tryMatchH1_not_hash a (t ++ sep) ha]
      rfl

end Url2md

namespace Url2md

theorem takeWhile_all {α} (p : α → Bool) :
    ∀ l : List α, (∀ x ∈ l, p x = true) → l.takeWhile p = l := by
  intro l h
  induction l with
  | nil => rfl
  | cons a as ih =>
    rw [List.takeWhile_cons, if_pos (h a (List.mem_cons_self _ _))]
    rw [ih (fun x hx => h x (List.mem_cons_of_mem _ hx))]

theorem dropWhile_all {α} (p : α → Bool) :
    ∀ l : List α, (∀ x ∈ l, p x = true) → l.dropWhile p = [] := by
  intro l h
  induction l with
  | nil => rfl
  | cons a as ih =>
    rw [List.dropWhile_cons, if_pos (h a (List.mem_cons_self _ _))]
    exact ih (fun x hx => h x (List.mem_cons_of_mem _ hx))

theorem replaceFirstH1_cons_shape (l : List Char) (ls : List (List Char)) :
    ∃ r rs', replaceFirstH1 (l :: ls) = r :: rs' := by
  have he : replaceFirstH1 (l :: ls) =
      if isH1Line l = true then [] :: ls else l :: replaceFirstH1 ls := rfl
  by_cases h : isH1Line l = true
  · exact ⟨[], ls, by rw [he, if_pos h]⟩
  · exact ⟨l, replaceFirstH1 ls, by rw [he, if_neg h]⟩

theorem replaceFirstH1_mem :
    ∀ (ls : List (List Char)) (l : List Char),
      l ∈ replaceFirstH1 ls → l = [] ∨ l ∈ ls := by
  intro ls
  induction ls with
  | nil => intro l h; cases h
  | cons a as ih =>
    intro l h
    unfold replaceFirstH1 at h
    by_cases ha : isH1Line a = true
    · rw [if_pos ha] at h
      rcases List.mem_cons.mp h with rfl | h'
      · exact Or.inl rfl
      · exact Or.inr (List.mem_cons_of_mem _ h')
    · rw [if_neg ha] at h
      rcases List.mem_cons.mp h with rfl | h'
      · exact Or.inr (List.mem_cons_self _ _)
      · rcases ih l h' with h'' | h''
        · exact Or.inl h''
        · exact Or.inr (List.mem_cons_of_mem _ h'')

theorem replaceFirstH1_no_nl (ls : List (List Char)) (hnl : ∀ l ∈ ls, '\n' ∉ l) :
    ∀ l ∈ replaceFirstH1 ls, '\n' ∉ l := by
  intro l hl
  rcases replaceFirstH1_mem ls l hl with rfl | h
  · simp
  · exact hnl l h

theorem removeFirstH1Go_lines :
    ∀ (ls : List (List Char)) (fuel : Nat),
      ls.length ≤ fuel →
      (∀ l ∈ ls, '\n' ∉ l) →
      (∀ l ∈ ls, l.head? = some '#' → ∃ c ∈ l.tail, isPySpace c = false) →
      removeFirstH1Go fuel (joinNl ls) = joinNl (replaceFirstH1 ls) := by
  intro ls
  induction ls with
  | nil =>
    intro fuel _ _ _
    cases fuel with
    | zero => rfl
    | succ f => rfl
  | cons l rest ih =>
    intro fuel hfuel hnl hreg
    cases fuel with
    | zero =>
      exfalso
      simp at hfuel
    | succ f =>
      have hnl_l : '\n' ∉ l := hnl l (List.mem_cons_self _ _)
      have hreg_l : l.head? = some '#' → ∃ c ∈ l.tail, isPySpace c = false :=
        hreg l (List.mem_cons_self _ _)
      have hall : ∀ x ∈ l, (decide (x ≠ '\n')) = true := by
        intro x hx
        simp only [decide_eq_true_eq]
        exact fun h => hnl_l (h ▸ hx)
      cases rest with
      | nil =>
        have htm := tryMatchH1_line l [] (Or.inl rfl) hnl_l hreg_l
        rw [List.append_nil] at htm
        have hj : joinNl [l] = l := rfl
        by_cases hH1 : isH1Line l = true
        · rw [if_pos hH1] at htm
          rw [removeFirstH1Go_succ, hj, htm]
          show l.drop l.length = joinNl (replaceFirstH1 [l])
          rw [List.drop_length]
          rw [show replaceFirstH1 [l] =
            if isH1Line l = true then [[]] else [l] from rfl, if_pos hH1]
          rfl
        · rw [if_neg hH1] at htm
          rw [removeFirstH1Go_succ, hj, htm]
          have h1 : l.takeWhile (· ≠ '\n') = l := takeWhile_all _ l hall
          have h2 : l.dropWhile (· ≠ '\n') = [] := dropWhile_all _ l hall
          show l.takeWhile (· ≠ '\n') ++ (match l.dropWhile (· ≠ '\n') with
            | '\n' :: q => '\n' :: removeFirstH1Go f q
            | rest => rest) = joinNl (replaceFirstH1 [l])
          rw [h1, h2]
          show l ++ [] = joinNl (replaceFirstH1 [l])
          rw [List.append_nil]
          rw [show replaceFirstH1 [l] =
            if isH1Line l = true then [[]] else [l] from rfl, if_neg hH1]
          rfl
      | cons r2 rs =>
        have hj : joinNl (l :: r2 :: rs) = l ++ '\n' :: joinNl (r2 :: rs) := rfl
        have htm := tryMatchH1_line l ('\n' :: joinNl (r2 :: rs))
          (Or.inr ⟨_, rfl⟩) hnl_l hreg_l
        by_cases hH1 : isH1Line l = true
        · rw [if_pos hH1] at htm
          rw [removeFirstH1Go_succ, hj, htm]
          show (l ++ '\n' :: joinNl (r2 :: rs)).drop l.length =
            joinNl (replaceFirstH1 (l :: r2 :: rs))
          rw [drop_append_left_le _ _ _ (Nat.le_refl _), List.drop_length,
            List.nil_append]
          rw [show replaceFirstH1 (l :: r2 :: rs) =
            if isH1Line l = true then [] :: r2 :: rs
            else l :: replaceFirstH1 (r2 :: rs) from rfl, if_pos hH1]
          rfl
        · rw [if_neg hH1] at htm
          rw [removeFirstH1Go_succ, hj, htm]
          show (l ++ '\n' :: joinNl (r2 :: rs)).takeWhile (· ≠ '\n') ++
            (match (l ++ '\n' :: joinNl (r2 :: rs)).dropWhile (· ≠ '\n') with
             | '\n' :: q => '\n' :: removeFirstH1Go f q
             | rest => rest) = joinNl (replaceFirstH1 (l :: r2 :: rs))
          rw [takeWhile_append_all _ _ _ hall, dropWhile_append_all _ _ _ hall]
          have hsk : ('\n' :: joinNl (r2 :: rs)).takeWhile (· ≠ '\n') = [] := by
            rw [List.takeWhile_cons, if_neg (by simp)]
          have hsd : ('\n' :: joinNl (r2 :: rs)).dropWhile (· ≠ '\n') =
              '\n' :: joinNl (r2 :: rs) := by
            rw [List.dropWhile_cons, if_neg (by simp)]
          rw [hsk, hsd, List.append_nil]
          show l ++ '\n' :: removeFirstH1Go f (joinNl (r2 :: rs)) =
            joinNl (replaceFirstH1 (l :: r2 :: rs))
          rw [ih f (by simp only [List.length_cons] at hfuel ⊢; omega)
            (fun x hx => hnl x (List.mem_cons_of_mem _ hx))
            (fun x hx => hreg x (List.mem_cons_of_mem _ hx))]
          rw [show replaceFirstH1 (l :: r2 :: rs) =
            if isH1Line l = true then [] :: r2 :: rs
            else l :: replaceFirstH1 (r2 :: rs) from rfl, if_neg hH1]
          obtain ⟨r, rs', hshape⟩ := replaceFirstH1_cons_shape r2 rs
          rw [hshape]
          rfl

end Url2md

namespace Url2md

/-- C7 counterexample: the pattern `^#\s+.+$` is compiled with
`re.MULTILINE` but no `re.DOTALL`, yet `\s+` itself matches newlines, so
on `"#\nfoo"` the whitespace run crosses the line break and the match
swallows the following line: the whole text is deleted instead of being
returned unchanged (no line of the input is a `# Title` heading line). -/
theorem C7_crossing_counterexample :
    remove_first_h1 "#\nfoo" = "" ∧ remove_first_h1 "#\nfoo" ≠ "#\nfoo" := by
  constructor
  · decide
  · decide

/-- C7 (amended): on texts whose lines are regular — every line that
starts with `#` has some non-whitespace character after it, so the `\s+`
of `^#\s+.+$` cannot cross the line break — `remove_first_h1` acts
line-wise: the first level-1 heading line (a `#` followed by a
whitespace character) is emptied (and only that line; later `#` headings
survive), then leading blank lines are trimmed; with no heading line the
text is returned unchanged except for that trim. -/
theorem C7_remove_first_h1_lines (ls : List (List Char))
    (hnl : ∀ l ∈ ls, '\n' ∉ l)
    (hreg : ∀ l ∈ ls, l.head? = some '#' → ∃ c ∈ l.tail, isPySpace c = false) :
    remove_first_h1 ⟨joinNl ls⟩ =
      ⟨joinNl ((replaceFirstH1 ls).dropWhile (· = []))⟩ := by
  show (⟨lstripChar '\n'
    (removeFirstH1Go ((joinNl ls).length + 1) (joinNl ls))⟩ : String) = _
  rw [removeFirstH1Go_lines ls ((joinNl ls).length + 1) (lines_le_joinNl ls)
    hnl hreg]
  rw [lstrip_joinNl _ (replaceFirstH1_no_nl ls hnl)]

/-- Witness for C7: on a four-line regular text the first `# Title` line
is removed, the later `# Later` heading survives, and the emptied line
leaves a blank line behind. -/
theorem C7_remove_first_h1_lines_witness :
    remove_first_h1
        ⟨joinNl ["intro".data, "# Title".data, "body".data, "# Later".data]⟩ =
      "intro\n\nbody\n# Later" := by
  rw [C7_remove_first_h1_lines
    ["intro".data, "# Title".data, "body".data, "# Later".data]
    (by decide) (by decide)]
  decide

end Url2md
